import Mathlib

/-!
Verification of the fhir-typed definition-to-schema compiler against its
specification.  Each section embeds one part of the TypeScript source as
executable Lean definitions and proves (or refutes) the spec's claims about it.
-/

namespace FhirTyped

abbrev DepMap := List (String × List String)

/-- Lookup in a JS object modelled as an association list. -/
def lookupMap (m : DepMap) (k : String) : Option (List String) :=
  match m with
  | [] => none
  | (k0, v0) :: rest => if k0 = k then some v0 else lookupMap rest k

/-- `dependencyMap[key] = value` on a JS object: overwrite in place or append. -/
def updateMap (m : DepMap) (k : String) (v : List String) : DepMap :=
  match m with
  | [] => [(k, v)]
  | (k0, v0) :: rest => if k0 = k then (k0, v) :: rest else (k0, v0) :: updateMap rest k v

/-- `dependencyMap[node] || []`. -/
def depsOf (m : DepMap) (k : String) : List String :=
  (lookupMap m k).getD []

/-- `unique` from `src/utils/arrays.ts`: keep the first occurrence of each
element, in order (a JS `Set` is insertion-ordered). -/
def uniqueAux (seen : List String) : List String → List String
  | [] => []
  | x :: xs => if x ∈ seen then uniqueAux seen xs else x :: uniqueAux (x :: seen) xs

/-- `unique(arr)` for string arrays. -/
def uniqueStr (l : List String) : List String :=
  uniqueAux [] l

/-- State of the traversal in `topologicalSortWithTransitiveResolution`:
the accumulator arrays `sorted` and `cycles` and the sets `visited` and
`visiting`. -/
structure TopoState where
  sorted : List String
  cycles : List (List String)
  visited : List String
  visiting : List String
deriving Repr, DecidableEq

/-- The `for (const neighbor of dependencyMap[node] || [])` loop body:
run `f` on each neighbour in order, stopping at the first `true` result
(`return true; // Stop on first cycle detection`). -/
def dfsStep (f : String → TopoState → Bool × TopoState) :
    List String → TopoState → Bool × TopoState
  | [], s => (false, s)
  | n :: ns, s =>
    let r := f n s
    if r.1 then r else dfsStep f ns r.2

/-- The inner `dfs(node, path)` of `topologicalSortWithTransitiveResolution`.
Returns `true` iff a cycle was detected (in which case the unwinding skips
both `visiting.delete` and the post-order append, exactly as in the source,
where `return true` bypasses them). -/
def dfsRun (m : DepMap) : Nat → String → List String → TopoState → Bool × TopoState
  | 0, _, _, s => (true, s)
  | fuel + 1, node, path, s =>
    if node ∈ s.visited then (false, s)
    else if node ∈ s.visiting then
      (true, { s with cycles := s.cycles ++ [path] })
    else
      let s1 : TopoState := { s with visiting := s.visiting ++ [node] }
      let r := dfsStep (fun n s2 => dfsRun m fuel n (path ++ [node]) s2) (depsOf m node) s1
      if r.1 then r
      else
        (false, { r.2 with
                    visiting := r.2.visiting.erase node
                    visited := r.2.visited ++ [node]
                    sorted := r.2.sorted ++ [node] })

/-- All node occurrences of a dependency map (keys and neighbour lists). -/
def allNodesRaw (m : DepMap) : List String :=
  m.map Prod.fst ++ (m.map Prod.snd).flatten

/-- Fuel that the adequacy lemmas show is never exhausted. -/
def topoFuel (m : DepMap) : Nat :=
  (allNodesRaw m).length + 1

/-- The outer `for (const node of Object.keys(dependencyMap))` loop. -/
def topoLoop (m : DepMap) : List String → TopoState → TopoState
  | [], s => s
  | k :: ks, s =>
    if k ∈ s.visited then topoLoop m ks s
    else topoLoop m ks (dfsRun m (topoFuel m) k [] s).2

/-- Result record of the sorter. -/
structure TopoResult where
  sorted : List String
  cycles : List (List String)
deriving Repr, DecidableEq

/-- `topologicalSortWithTransitiveResolution(dependencyMap)`:
run the DFS from every key and reverse the post-order accumulator. -/
def topologicalSortWithTransitiveResolution (m : DepMap) : TopoResult :=
  let s := topoLoop m (m.map Prod.fst) ⟨[], [], [], []⟩
  ⟨s.sorted.reverse, s.cycles⟩

/-- The edge relation of a dependency map: `DepEdge m x y` iff `y` is listed
as a dependency of `x`. -/
def DepEdge (m : DepMap) (x y : String) : Prop :=
  y ∈ depsOf m x

/-- A dependency map is acyclic iff no node reaches itself through one or
more edges. -/
def Acyclic (m : DepMap) : Prop :=
  ∀ n, ¬ Relation.TransGen (DepEdge m) n n

/-- A node is marked once it has entered `visiting` or `visited`. -/
def markedP (s : TopoState) (n : String) : Prop :=
  n ∈ s.visiting ∨ n ∈ s.visited

/-- Boolean version of `markedP`. -/
def markedB (s : TopoState) (n : String) : Bool :=
  decide (n ∈ s.visiting) || decide (n ∈ s.visited)

/-- Number of still-unmarked node occurrences; the DFS fuel bound. -/
def unmarkedCount (m : DepMap) (s : TopoState) : Nat :=
  (allNodesRaw m).countP (fun n => ! markedB s n)

/-- A traversal step only appends to the four state components
(`visiting` is restored exactly when the step returns `false`, which is an
instance of appending the empty list). -/
def StateExtends (s t : TopoState) : Prop :=
  (∃ d, t.sorted = s.sorted ++ d) ∧ (∃ d, t.visited = s.visited ++ d) ∧
    (∃ d, t.visiting = s.visiting ++ d) ∧ (∃ d, t.cycles = s.cycles ++ d)

/-- Base behaviour of one `f`-call, as needed to reason about the neighbour
loop: appended-only state, `visiting` restored on a `false` return together
with the node completed, and in-progress nodes never completing. -/
def CallBase (f : String → TopoState → Bool × TopoState) : Prop :=
  ∀ n s, StateExtends s (f n s).2 ∧
    ((f n s).1 = false → (f n s).2.visiting = s.visiting ∧ n ∈ (f n s).2.visited) ∧
    (∀ x, x ∈ s.visiting → x ∉ s.visited → x ∈ (f n s).2.visiting ∧ x ∉ (f n s).2.visited)

/-- The key invariant of the post-order accumulator: `visited` and `sorted`
have the same members, `sorted` has no duplicates, and every entry of
`sorted` has all its dependencies strictly earlier in `sorted`. -/
def GoodState (m : DepMap) (s : TopoState) : Prop :=
  (∀ n, n ∈ s.visited ↔ n ∈ s.sorted) ∧ s.sorted.Nodup ∧
    (∀ i (h : i < s.sorted.length), ∀ d ∈ depsOf m (s.sorted.get ⟨i, h⟩),
      d ∈ s.sorted.take i)

/-- `ResourceFile` (from `src/schemas/types`): descriptor of one on-disk
definition file. -/
structure ResourceFile where
  filePath : String
  resourceType : String
  url : String
  kind : Option String := none
  name : Option String := none
  date : Option String := none
  status : Option String := none
  experimental : Option Bool := none
  baseDefinition : Option String := none
deriving Repr, DecidableEq

/-- JavaScript `Array.prototype.indexOf`: index of the first occurrence,
`-1` when absent. -/
def jsIndexOf (l : List String) (x : String) : Int :=
  match l with
  | [] => -1
  | y :: ys =>
    if y = x then 0
    else
      let r := jsIndexOf ys x
      if r < 0 then -1 else r + 1

/-- `String.prototype.localeCompare`, modelled as code-point comparison
(canonical URLs are ASCII; the sign is all the comparator consumes). -/
def localeCompare (a b : String) : Int :=
  if a < b then -1 else if b < a then 1 else 0

/-- The dependency-map construction at the top of
`sortResourceFilesByDependencies`: extract each file's dependencies and merge
lists registered under the same URL, deduplicated. -/
def buildDependencyMap (extract : ResourceFile → List String)
    (files : List ResourceFile) : DepMap :=
  files.foldl
    (fun acc file => updateMap acc file.url (uniqueStr (depsOf acc file.url ++ extract file)))
    []

/-- `sortResourceFilesByDependencies(resourceFiles)` from `src/utils/sorting.ts`.
The dependency extraction function (`extractDependenciesFromResourceFile`, an
external collaborator of this module) is passed as a parameter. -/
def sortResourceFilesByDependencies (extract : ResourceFile → List String)
    (resourceFiles : List ResourceFile) : ResourceFile → ResourceFile → Int :=
  let dependencyMap := buildDependencyMap extract resourceFiles
  let sorted := (topologicalSortWithTransitiveResolution dependencyMap).sorted
  fun a b =>
    let aIndex := jsIndexOf sorted a.url
    let bIndex := jsIndexOf sorted b.url
    if aIndex > -1 ∧ bIndex > -1 then bIndex - aIndex
    else if aIndex > -1 then 1
    else if bIndex > -1 then -1
    else localeCompare a.url b.url

/-- Concrete two-file instance used to witness the sorting claims:
`fileB` depends on `fileA`. -/
def fileA : ResourceFile :=
  { filePath := "a.json", resourceType := "ValueSet", url := "a" }

/-- Second concrete file; its URL depends on `fileA`'s URL under `extractW`. -/
def fileB : ResourceFile :=
  { filePath := "b.json", resourceType := "StructureDefinition", url := "b" }

/-- Concrete dependency extraction used by the witnesses. -/
def extractW : ResourceFile → List String :=
  fun f => if f.url = "b" then ["a"] else []

/-- Value of one concept property (`ConceptPropertyValue`).  The JS value is
a string, boolean, number or Coding; strict equality `===` against a string
only ever succeeds on the string variant. -/
inductive PropValue where
  | str (s : String)
  | boolean (b : Bool)
  | num (n : Int)
  | coding (system code : String)
deriving Repr, DecidableEq

/-- One node of a concept hierarchy. -/
inductive ConceptHierarchyConcept where
  | mk (code : String) (properties : List (String × PropValue))
      (descendants : List ConceptHierarchyConcept)
deriving Repr

/-- The concept's `code` field. -/
def ConceptHierarchyConcept.code : ConceptHierarchyConcept → String
  | .mk c _ _ => c

/-- The concept's `properties` record, as an association list. -/
def ConceptHierarchyConcept.properties :
    ConceptHierarchyConcept → List (String × PropValue)
  | .mk _ ps _ => ps

/-- The concept's `descendants` array. -/
def ConceptHierarchyConcept.descendants :
    ConceptHierarchyConcept → List ConceptHierarchyConcept
  | .mk _ _ ds => ds

/-- `concept.properties[key]`. -/
def propOf (c : ConceptHierarchyConcept) (key : String) : Option PropValue :=
  match c.properties.find? (fun p => p.1 == key) with
  | some p => some p.2
  | none => none

mutual
/-- `findCodeIn` from `findConcept`: the concept itself, else its subtree. -/
def findCodeIn (code : String) : ConceptHierarchyConcept → Option ConceptHierarchyConcept
  | .mk c props ds =>
    if c = code then some (ConceptHierarchyConcept.mk c props ds)
    else findCodeInChildren code ds
/-- The `for (const child of concept.descendants)` loop inside `findCodeIn`. -/
def findCodeInChildren (code : String) :
    List ConceptHierarchyConcept → Option ConceptHierarchyConcept
  | [] => none
  | child :: rest =>
    if child.code = code then some child
    else
      match findCodeIn code child with
      | some r => some r
      | none => findCodeInChildren code rest
end

/-- `findCodeAmong`: first hit of `findCodeIn` over the roots. -/
def findCodeAmong (code : String) :
    List ConceptHierarchyConcept → Option ConceptHierarchyConcept
  | [] => none
  | c :: rest =>
    match findCodeIn code c with
    | some r => some r
    | none => findCodeAmong code rest

/-- A concept hierarchy: a URL plus a forest of concepts. -/
structure ConceptHierarchy where
  url : String
  concepts : List ConceptHierarchyConcept
deriving Repr

/-- `findConcept(hierarchy, code)`. -/
def findConcept (h : ConceptHierarchy) (code : String) :
    Option ConceptHierarchyConcept :=
  findCodeAmong code h.concepts

mutual
/-- `collectCodesUnder`: the codes of a subtree, preorder, root included. -/
def collectCodesUnder : ConceptHierarchyConcept → List String
  | .mk c _ ds => c :: collectCodesUnderList ds
/-- `flatMap(collectCodesUnder)` over a list of concepts. -/
def collectCodesUnderList : List ConceptHierarchyConcept → List String
  | [] => []
  | d :: rest => collectCodesUnder d ++ collectCodesUnderList rest
end

/-- `hierarchicalDescendantsOf(hierarchy, code)`. -/
def hierarchicalDescendantsOf (h : ConceptHierarchy) (code : String) : List String :=
  match findConcept h code with
  | some c => collectCodesUnderList c.descendants
  | none => []

mutual
/-- `collectPathBetween(root, code)` from `hierarchicalAncestorsOf`. -/
def collectPathBetween (code : String) : ConceptHierarchyConcept → List String
  | .mk c _ ds => collectPathChildren code c ds
/-- The `for (const child of root.descendants)` loop of `collectPathBetween`. -/
def collectPathChildren (code : String) (rootCode : String) :
    List ConceptHierarchyConcept → List String
  | [] => []
  | child :: rest =>
    if child.code = code then [rootCode]
    else
      match collectPathBetween code child with
      | [] => collectPathChildren code rootCode rest
      | q => rootCode :: q
end

/-- The `for (const root of hierarchy.concepts)` loop of
`hierarchicalAncestorsOf`. -/
def ancestorsLoop (code : String) : List ConceptHierarchyConcept → List String
  | [] => []
  | root :: rest =>
    if root.code = code then []
    else
      match collectPathBetween code root with
      | [] => ancestorsLoop code rest
      | q => q

/-- `hierarchicalAncestorsOf(hierarchy, code)`. -/
def hierarchicalAncestorsOf (h : ConceptHierarchy) (code : String) : List String :=
  match findConcept h code with
  | none => []
  | some _ => ancestorsLoop code h.concepts

/-- `AncPath code root l` says `l` is the root-first list of codes along a
real branch of the forest starting at the top-level concept `root` and ending
at the parent of the concept named `code`. -/
inductive AncPath (code : String) : ConceptHierarchyConcept → List String → Prop where
  | parent (c : ConceptHierarchyConcept) :
      code ∈ c.descendants.map ConceptHierarchyConcept.code → AncPath code c [c.code]
  | step (c child : ConceptHierarchyConcept) (l : List String) :
      child ∈ c.descendants → AncPath code child l → AncPath code c (c.code :: l)

/-- The spec's example hierarchy: `human` with `child -> {boy, girl}` and
`adult -> {man, woman}`. -/
def hierHuman : ConceptHierarchy :=
  { url := "http://example.org/human"
    concepts := [.mk "human" []
      [.mk "child" [] [.mk "boy" [] [], .mk "girl" [] []],
       .mk "adult" [] [.mk "man" [] [], .mk "woman" [] []]]] }

/-- JSON values. -/
inductive Json where
  | null
  | bool (b : Bool)
  | num (n : Int)
  | str (s : String)
  | arr (xs : List Json)
  | obj (fields : List (String × Json))

/-- Own-field lookup on a JSON object. -/
def jsonLookup (fields : List (String × Json)) (name : String) : Option Json :=
  match fields with
  | [] => none
  | (k, v) :: rest => if k = name then some v else jsonLookup rest name

/-- Deep embedding of the Zod schemas produced by this compiler. -/
inductive ZSchema where
  | any
  | never
  | boolean
  | string (minLen : Nat)
  | literal (v : String)
  | enumOf (vs : List String)
  | and_ (a b : ZSchema)
  | or_ (a b : ZSchema)
  | object (shape : List (String × ZSchema))
  | array (item : ZSchema) (minLen maxLen : Nat)
  | optional (inner : ZSchema)
  | refine (base : ZSchema) (issues : Json → List String)
  | regex (pattern : String)

/-- Does a schema accept an absent object field?  (`.optional()` does;
`z.any()` also parses `undefined`.) -/
def isOptionalZ : ZSchema → Bool
  | .optional _ => true
  | .any => true
  | _ => false

mutual
/-- Parse-success semantics of a schema against a JSON value.  `re` is the
regular-expression engine (`re pattern s` = "`s` matches `pattern`"). -/
def accepts (re : String → String → Bool) : ZSchema → Json → Bool
  | .any, _ => true
  | .never, _ => false
  | .boolean, v =>
    match v with
    | .bool _ => true
    | _ => false
  | .string minLen, v =>
    match v with
    | .str s => decide (minLen ≤ s.length)
    | _ => false
  | .literal val, v =>
    match v with
    | .str s => decide (s = val)
    | _ => false
  | .enumOf vs, v =>
    match v with
    | .str s => vs.contains s
    | _ => false
  | .and_ a b, v => accepts re a v && accepts re b v
  | .or_ a b, v => accepts re a v || accepts re b v
  | .object shape, v =>
    match v with
    | .obj fields => acceptsShape re shape fields
    | _ => false
  | .array item minLen maxLen, v =>
    match v with
    | .arr xs =>
      decide (minLen ≤ xs.length) && decide (xs.length ≤ maxLen) &&
        xs.all (fun x => accepts re item x)
    | _ => false
  | .optional inner, v => accepts re inner v
  | .refine base f, v => accepts re base v && (f v).isEmpty
  | .regex pattern, v =>
    match v with
    | .str s => re pattern s
    | _ => false
/-- Known fields of a `z.object` shape: absent fields need an optional
schema, present ones are validated; unknown fields are permitted. -/
def acceptsShape (re : String → String → Bool) :
    List (String × ZSchema) → List (String × Json) → Bool
  | [], _ => true
  | (name, fs) :: rest, fields =>
    (match jsonLookup fields name with
     | none => isOptionalZ fs
     | some v => accepts re fs v) && acceptsShape re rest fields
end

/-! ## The ValueSet schema generator (`parsing/valueset/schema-generator.ts`)

Exceptions (`throw new Error`) are modelled with `Except String`; the
resource resolver composed with the `isConceptHierarchy` guard is modelled as
a partial map to concept hierarchies. -/

/-- One filter of a `ValueSet.compose.include` entry. -/
structure SystemIncludeFilter where
  property : String
  op : String
  value : String
deriving Repr, DecidableEq

/-- One `ValueSet.compose.include` (or `.exclude`) entry. -/
structure ValueSetComposeInclude where
  system : Option String := none
  valueSet : Option (List String) := none
  concept : Option (List String) := none
  filter : Option (List SystemIncludeFilter) := none
deriving Repr, DecidableEq

/-- `isValueSetInclude`: a non-empty `valueSet` array is present. -/
def isValueSetInclude (inc : ValueSetComposeInclude) : Bool :=
  match inc.valueSet with
  | some l => decide (0 < l.length)
  | none => false

/-- `isSystemInclude`: `include.system !== undefined`. -/
def isSystemInclude (inc : ValueSetComposeInclude) : Bool :=
  inc.system.isSome

/-- `ValueSet.compose`. -/
structure ValueSetCompose where
  incl : Option (List ValueSetComposeInclude) := none
  excl : Option (List ValueSetComposeInclude) := none
deriving Repr, DecidableEq

/-- The parts of a `ValueSet` resource that the generator reads. -/
structure ValueSet where
  url : Option String := none
  compose : Option ValueSetCompose := none
deriving Repr, DecidableEq

/-- `valueSet.compose?.include || []`. -/
def composeIncludes (vs : ValueSet) : List ValueSetComposeInclude :=
  match vs.compose with
  | some c => c.incl.getD []
  | none => []

/-- `valueSet.compose?.exclude || []`. -/
def composeExcludes (vs : ValueSet) : List ValueSetComposeInclude :=
  match vs.compose with
  | some c => c.excl.getD []
  | none => []

/-- Strict (`===`) equality of a concept-property value with the (string)
filter value: only string property values can ever be equal. -/
def propEq (pv : PropValue) (v : String) : Bool :=
  match pv with
  | .str s => decide (s = v)
  | _ => false

/-- `createFilterSchema(codeSystemUrl, filter, resolveResource)`: the schema
for one supported filter operator; unsupported operators throw.  The
`resolveResource`-plus-`isConceptHierarchy` combination of the source is the
partial map `rr`. -/
def createFilterSchema (codeSystemUrl : String) (filter : SystemIncludeFilter)
    (rr : String → Option ConceptHierarchy) : Except String ZSchema := do
  let valueSchema : ZSchema ←
    (if filter.op = "=" then
      Except.ok (ZSchema.literal filter.value)
    else if filter.op = "generalizes" then
      match rr codeSystemUrl with
      | some hierarchy =>
        Except.ok (ZSchema.refine (ZSchema.string 0) (fun v =>
          match v with
          | .str s =>
            if (filter.value :: hierarchicalAncestorsOf hierarchy filter.value).contains s
            then [] else ["does not pass the filter"]
          | _ => []))
      | none =>
        Except.ok (ZSchema.refine (ZSchema.string 0) (fun v =>
          match v with
          | .str s => if s = filter.value then [] else ["does not pass the filter"]
          | _ => []))
    else if filter.op = "is-a" then
      match rr codeSystemUrl with
      | some hierarchy =>
        Except.ok (ZSchema.refine (ZSchema.string 0) (fun v =>
          match v with
          | .str s =>
            if (filter.value :: hierarchicalDescendantsOf hierarchy filter.value).contains s
            then [] else ["does not pass the filter"]
          | _ => []))
      | none =>
        Except.ok (ZSchema.refine (ZSchema.string 0) (fun v =>
          match v with
          | .str s => if s = filter.value then [] else ["does not pass the filter"]
          | _ => []))
    else if filter.op = "is-not-a" then
      match rr codeSystemUrl with
      | some hierarchy =>
        Except.ok (ZSchema.refine (ZSchema.string 0) (fun v =>
          match v with
          | .str s =>
            if (filter.value :: hierarchicalDescendantsOf hierarchy filter.value).contains s
            then ["does not pass the filter"] else []
          | _ => []))
      | none =>
        Except.ok (ZSchema.refine (ZSchema.string 0) (fun v =>
          match v with
          | .str s => if s = filter.value then ["does not pass the filter"] else []
          | _ => []))
    else if filter.op = "descendent-of" then
      match rr codeSystemUrl with
      | some hierarchy =>
        Except.ok (ZSchema.refine (ZSchema.string 0) (fun v =>
          match v with
          | .str s =>
            if (hierarchicalDescendantsOf hierarchy filter.value).contains s
            then [] else ["does not pass the filter"]
          | _ => []))
      | none =>
        Except.ok (ZSchema.refine (ZSchema.string 0) (fun v =>
          match v with
          | .str s => if s = filter.value then ["does not pass the filter"] else []
          | _ => []))
    else if filter.op = "regex" then
      Except.ok (ZSchema.regex filter.value)
    else if filter.op = "in" then
      Except.ok (ZSchema.refine (ZSchema.string 0) (fun v =>
        match v with
        | .str s =>
          if ((filter.value.splitOn ",").map String.trim).contains s
          then [] else ["does not pass the filter"]
        | _ => []))
    else if filter.op = "not-in" then
      Except.ok (ZSchema.refine (ZSchema.string 0) (fun v =>
        match v with
        | .str s =>
          if ((filter.value.splitOn ",").map String.trim).contains s
          then ["does not pass the filter"] else []
        | _ => []))
    else
      Except.error "Unsupported filter operator")
  if filter.property = "code" then
    Except.ok valueSchema
  else
    match rr codeSystemUrl with
    | some hierarchy =>
      Except.ok (ZSchema.refine (ZSchema.string 0) (fun v =>
        match v with
        | .str s =>
          match findConcept hierarchy s with
          | none => ["not found from hierarchy"]
          | some concept =>
            match propOf concept filter.property with
            | none => ["does not have property"]
            | some pv =>
              if propEq pv filter.value then [] else ["property value mismatch"]
        | _ => []))
    | none => Except.ok ZSchema.any

/-- `createIncludeSchemasForValueSet`: one schema per referenced ValueSet,
falling back to the default when unresolved. -/
def createIncludeSchemasForValueSet (urls : List String)
    (resolveSchema : String → Option ZSchema) (defaultSchema : ZSchema) : List ZSchema :=
  urls.map (fun url => (resolveSchema url).getD defaultSchema)

/-- `andSchemas`: `z.never()` on an empty list, else a left fold of `.and`. -/
def andSchemas (schemas : List ZSchema) : ZSchema :=
  match schemas with
  | [] => ZSchema.never
  | s :: rest => rest.foldl ZSchema.and_ s

/-- `orSchemas`: `z.never()` on an empty list, else a left fold of `.or`. -/
def orSchemas (schemas : List ZSchema) : ZSchema :=
  match schemas with
  | [] => ZSchema.never
  | s :: rest => rest.foldl ZSchema.or_ s

/-- The operators the generator implements. -/
def supportedOps : List String :=
  ["=", "regex", "in", "not-in", "is-a", "is-not-a", "descendent-of", "generalizes"]

/-- `createIncludeSchemasForSystem(include, ...)` with `sys` the include's
(present) `system`. -/
def createIncludeSchemasForSystem (inc : ValueSetComposeInclude) (sys : String)
    (resolveSchema : String → Option ZSchema) (rr : String → Option ConceptHierarchy)
    (defaultSchema : ZSchema) : Except String (List ZSchema) :=
  let systemSchema := resolveSchema sys
  match inc.concept.getD [] with
  | [c] => Except.ok [ZSchema.literal c]
  | c1 :: c2 :: rest => Except.ok [ZSchema.enumOf (c1 :: c2 :: rest)]
  | [] =>
    let filters := inc.filter.getD []
    if 0 < filters.length then
      let implemented := filters.filter (fun f => supportedOps.contains f.op)
      if 0 < implemented.length then do
        let filterSchemas ← implemented.mapM (fun f => createFilterSchema sys f rr)
        let filterSchema := andSchemas filterSchemas
        match systemSchema with
        | some s => Except.ok [ZSchema.and_ s filterSchema]
        | none => Except.ok [ZSchema.and_ (ZSchema.string 0) filterSchema]
      else
        Except.ok [systemSchema.getD defaultSchema]
    else
      Except.ok [systemSchema.getD defaultSchema]

/-- `collectSchemas(includes, ...)`: dispatch each include entry;
an entry that is neither a ValueSet include nor a system include throws
`Invalid include element`. -/
def collectSchemas (includes : List ValueSetComposeInclude)
    (resolveSchema : String → Option ZSchema) (rr : String → Option ConceptHierarchy)
    (defaultSchema : ZSchema) : Except String (List ZSchema) :=
  includes.foldlM
    (fun acc inc =>
      if isValueSetInclude inc then
        Except.ok (acc ++
          createIncludeSchemasForValueSet (inc.valueSet.getD []) resolveSchema defaultSchema)
      else if h : isSystemInclude inc then do
        let schemas ← createIncludeSchemasForSystem inc
          (inc.system.get (by simpa [isSystemInclude] using h)) resolveSchema rr defaultSchema
        Except.ok (acc ++ schemas)
      else
        Except.error "Invalid include element")
    []

/-- `generateSchemaForIncludes`: OR of the collected include schemas with
default `z.string().min(1)`; returns the warning log (non-empty exactly when
no schema was contributed). -/
def generateSchemaForIncludes (vs : ValueSet)
    (resolveSchema : String → Option ZSchema) (rr : String → Option ConceptHierarchy) :
    Except String (ZSchema × List String) := do
  let schemas ← collectSchemas (composeIncludes vs) resolveSchema rr (ZSchema.string 1)
  Except.ok (orSchemas schemas,
    if schemas.isEmpty then ["Could not contribute any schemas for ValueSet"] else [])

/-- `generateSchemaForExcludes`: AND of the collected exclude schemas with
default `z.never()`. -/
def generateSchemaForExcludes (vs : ValueSet)
    (resolveSchema : String → Option ZSchema) (rr : String → Option ConceptHierarchy) :
    Except String ZSchema := do
  let schemas ← collectSchemas (composeExcludes vs) resolveSchema rr ZSchema.never
  Except.ok (andSchemas schemas)

/-- `processResource` of the ValueSet generator: the contributed schema is
the include schema refined by exclusion (a value is excluded iff the exclude
schema accepts it); returns it together with the warning log. -/
def processValueSetResource (re : String → String → Bool) (file : ResourceFile)
    (vs : ValueSet) (resolveSchema : String → Option ZSchema)
    (rr : String → Option ConceptHierarchy) :
    Except String (ZSchema × List String) := do
  if file.resourceType ≠ "ValueSet" then
    Except.error "processResource: Expected a ValueSet"
  else
    let inc ← generateSchemaForIncludes vs resolveSchema rr
    let exc ← generateSchemaForExcludes vs resolveSchema rr
    Except.ok (ZSchema.refine inc.1
      (fun v => if accepts re exc v then ["is excluded from the ValueSet"] else []), inc.2)

/-- Concrete ValueSet used by the C4 witness: one include with a system and
an explicit single concept `x`, no excludes. -/
def vsW : ValueSet :=
  { compose := some { incl := some [{ system := some "s", concept := some ["x"] }] } }

/-- Trivial regex engine for witnesses (never consulted by them). -/
def reF : String → String → Bool := fun _ _ => false

/-- Empty schema resolver. -/
def rsN : String → Option ZSchema := fun _ => none

/-- Empty resource (hierarchy) resolver. -/
def rrN : String → Option ConceptHierarchy := fun _ => none

/-- The ValueSet resource file of the C4 witness. -/
def fileVS : ResourceFile :=
  { filePath := "vs.json", resourceType := "ValueSet", url := "vs" }

/-- The schema the generator contributes for `vsW`. -/
def schemaW : ZSchema :=
  (((processValueSetResource reF fileVS vsW rsN rrN).map Prod.fst).toOption).getD ZSchema.never

/-- C5 counterexample input: a hierarchy where `kid` is a strict descendant
of `parent`, and the concept `x` carries property `prop` with value `kid`. -/
def cptX : ConceptHierarchyConcept :=
  .mk "x" [("prop", PropValue.str "kid")] []

/-- The counterexample hierarchy. -/
def hierProp : ConceptHierarchy :=
  { url := "u", concepts := [.mk "parent" [] [.mk "kid" [] []], cptX] }

/-- Resource resolver exposing `hierProp` under the URL `u`. -/
def rrProp : String → Option ConceptHierarchy :=
  fun u => if u = "u" then some hierProp else none

/-- One constraint of an element definition. -/
structure ElementConstraint where
  key : Option String := none
  severity : Option String := none
  expression : Option String := none
  human : Option String := none
  xpath : Option String := none
  source : Option String := none
deriving Repr, DecidableEq

/-- One slicing discriminator. -/
structure SliceDiscriminator where
  type : String
  path : String
deriving Repr, DecidableEq

mutual
/-- One node of the intermediate format (`id`, `path`, `sliceName`,
`fieldName`, cardinality, type(s), `pattern[x]`/`fixed[x]`, constraints,
`__children`, `slicing`). -/
inductive IntermediateStructureElement where
  | mk (id : Option String) (path : String) (sliceName : Option String)
      (fieldName : String) (min : Nat) (max : Nat) (type : String)
      (types : List String) (patternValue : Option Json) (fixedValue : Option Json)
      (constraint : List ElementConstraint)
      (children : List IntermediateStructureElement)
      (slicing : Option ElementSlicing)
/-- The `slicing` payload: discriminators, ordering, rules, slice roots. -/
inductive ElementSlicing where
  | mk (discriminator : List SliceDiscriminator) (ordered : Bool) (rules : String)
      (slices : List IntermediateStructureElement)
end

namespace IntermediateStructureElement

def id : IntermediateStructureElement → Option String
  | .mk i _ _ _ _ _ _ _ _ _ _ _ _ => i

def path : IntermediateStructureElement → String
  | .mk _ p _ _ _ _ _ _ _ _ _ _ _ => p

def sliceName : IntermediateStructureElement → Option String
  | .mk _ _ sn _ _ _ _ _ _ _ _ _ _ => sn

def fieldName : IntermediateStructureElement → String
  | .mk _ _ _ fn _ _ _ _ _ _ _ _ _ => fn

def min : IntermediateStructureElement → Nat
  | .mk _ _ _ _ mn _ _ _ _ _ _ _ _ => mn

def max : IntermediateStructureElement → Nat
  | .mk _ _ _ _ _ mx _ _ _ _ _ _ _ => mx

def type : IntermediateStructureElement → String
  | .mk _ _ _ _ _ _ t _ _ _ _ _ _ => t

def types : IntermediateStructureElement → List String
  | .mk _ _ _ _ _ _ _ ts _ _ _ _ _ => ts

def patternValue : IntermediateStructureElement → Option Json
  | .mk _ _ _ _ _ _ _ _ pv _ _ _ _ => pv

def fixedValue : IntermediateStructureElement → Option Json
  | .mk _ _ _ _ _ _ _ _ _ fv _ _ _ => fv

def constraint : IntermediateStructureElement → List ElementConstraint
  | .mk _ _ _ _ _ _ _ _ _ _ cs _ _ => cs

def children : IntermediateStructureElement → List IntermediateStructureElement
  | .mk _ _ _ _ _ _ _ _ _ _ _ ch _ => ch

def slicing : IntermediateStructureElement → Option ElementSlicing
  | .mk _ _ _ _ _ _ _ _ _ _ _ _ sl => sl

end IntermediateStructureElement

def sizeOf_children_lt (e : IntermediateStructureElement) :
    sizeOf e.children < sizeOf e := by
  cases e with
  | mk i p sn fn mn mx t ts pv fv cs ch sl =>
    simp [IntermediateStructureElement.children]
    omega

def sizeOf_mem_lt {c : IntermediateStructureElement}
    {l : List IntermediateStructureElement} (h : c ∈ l) : sizeOf c < sizeOf l :=
  List.sizeOf_lt_of_mem h

def head_lt_cons (c : IntermediateStructureElement)
    (l : List IntermediateStructureElement) : sizeOf c < sizeOf (c :: l) := by
  simp only [List.cons.sizeOf_spec]; omega

def tail_lt_cons (c : IntermediateStructureElement)
    (l : List IntermediateStructureElement) : sizeOf l < sizeOf (c :: l) := by
  simp only [List.cons.sizeOf_spec]; omega

def children_lt_cons (c : IntermediateStructureElement)
    (l : List IntermediateStructureElement) :
    sizeOf c.children + 1 < sizeOf (c :: l) := by
  have h1 := sizeOf_children_lt c
  simp only [List.cons.sizeOf_spec]; omega

def children_lt_cons0 (c : IntermediateStructureElement)
    (l : List IntermediateStructureElement) :
    sizeOf c.children < sizeOf (c :: l) := by
  have h1 := sizeOf_children_lt c
  simp only [List.cons.sizeOf_spec]; omega

/-- Number of slices of an element's slicing payload. -/
def slicesLength : Option ElementSlicing → Nat
  | none => 0
  | some (.mk _ _ _ sl) => sl.length

/-- JS `String.prototype.startsWith`. -/
def jsStartsWith (s pfx : String) : Bool :=
  s.data.take pfx.data.length == pfx.data

/-- JS `String.prototype.endsWith`. -/
def jsEndsWith (s suf : String) : Bool :=
  s.data.drop (s.data.length - suf.data.length) == suf.data &&
    suf.data.length ≤ s.data.length

/-- JS `String.prototype.slice(0, -n)` (for `n ≤ length`). -/
def jsDropRight (s : String) (n : Nat) : String :=
  String.mk (s.data.take (s.data.length - n))

/-- `capitalizeFirstLetter` from `src/utils/strings.ts`. -/
def capitalizeFirstLetter (s : String) : String :=
  match s.data with
  | [] => ""
  | c :: rest => String.mk (c.toUpper :: rest)

/-- `MustHaveAtMostOneFieldStartingWith(prefix)` from
`src/schemas/types/common-refinements.ts`: on an object, an issue is added
when more than one own field name starts with the prefix. -/
def MustHaveAtMostOneFieldStartingWith (pfx : String) : Json → List String :=
  fun data =>
    match data with
    | .obj fields =>
      if 1 < ((fields.map Prod.fst).filter (fun k => jsStartsWith k pfx)).length then
        ["instances of choice-of-type field found"]
      else []
    | _ => []

/-- A `z.object` shape under construction (JS object: insertion-ordered,
assignment overwrites in place). -/
abbrev Shape := List (String × ZSchema)

/-- `shape[fieldName] = schema`. -/
def upsertShape (shape : Shape) (fieldName : String) (s : ZSchema) : Shape :=
  match shape with
  | [] => [(fieldName, s)]
  | (k, v) :: rest =>
    if k = fieldName then (k, s) :: rest else (k, v) :: upsertShape rest fieldName s

/-- Lookup in a shape. -/
def shapeLookup (shape : Shape) (fieldName : String) : Option ZSchema :=
  match shape with
  | [] => none
  | (k, v) :: rest => if k = fieldName then some v else shapeLookup rest fieldName

/-- External collaborators of `convertToSchema`: the schema resolver, the
FHIRPath-driven constraint refinement factory (`addConstraintToSchema`'s
refinement function), the FHIRPath-driven slicing refinement factory
(`createRefinementForSlices`), and the generated static `Schemas` table. -/
structure ConvertCtx where
  resolveSchema : String → Option ZSchema
  cref : ElementConstraint → Json → List String
  sliceRef : IntermediateStructureElement → Option (Json → List String)
  statics : String → Option ZSchema

/-- `applyCardinality(itemTypeSchema, min, max)`: wrap in a bounded array
when `max > 1`, then in `.optional()` when `min = 0`. -/
def applyCardinality (itemTypeSchema : ZSchema) (min max : Nat) : ZSchema :=
  let schema := if 1 < max then ZSchema.array itemTypeSchema min max else itemTypeSchema
  if min = 0 then ZSchema.optional schema else schema

/-- `applyRefinementsToSchema(schema, refinements)`: chain the refinements
with `superRefine` and intersect with the unrefined schema. -/
def applyRefinementsToSchema (schema : ZSchema) (refinements : List (Json → List String)) :
    ZSchema :=
  ZSchema.and_ schema (refinements.foldl ZSchema.refine schema)

/-- `resolveBaseType(baseType)` of `createSchema`. -/
def resolveBaseType (ctx : ConvertCtx) (baseType : String) : Option ZSchema :=
  if baseType = "boolean" then
    some (ZSchema.or_ ZSchema.boolean (ZSchema.enumOf ["true", "false"]))
  else if baseType = "choice-of-type" then none
  else
    match ctx.resolveSchema baseType with
    | some s => some s
    | none =>
      let retry :=
        if ¬ (jsStartsWith baseType "http://" = true ∨ jsStartsWith baseType "https://" = true) then
          ctx.resolveSchema ("http://hl7.org/fhir/StructureDefinition/" ++ baseType)
        else none
      match retry with
      | some s => some s
      | none => ctx.statics baseType

/-- Append an optional refinement (`if (refinement) refinements.push(...)`). -/
def pushOpt (st : Shape × List (Json → List String))
    (r : Option (Json → List String)) : Shape × List (Json → List String) :=
  match r with
  | some f => (st.1, st.2 ++ [f])
  | none => st

/-- The element `{...child, fieldName, type: t, types: [], min: 0, max: 1}`
built for one choice-of-type variant. -/
def variantElem (child : IntermediateStructureElement) (variantFieldName t : String) :
    IntermediateStructureElement :=
  .mk child.id child.path child.sliceName variantFieldName 0 1 t []
    child.patternValue child.fixedValue child.constraint child.children child.slicing

mutual
/-- `createSchema(intermediate, baseType?)` of `convertToSchema`. -/
def createSchema (ctx : ConvertCtx) (e : IntermediateStructureElement)
    (baseType : Option String) : ZSchema :=
  let schema0 := resolveBaseType ctx (baseType.getD e.type)
  let sr := createShape ctx e
  let schema1 :=
    if sr.1.length ≠ 0 then
      some (applyRefinementsToSchema (ZSchema.object sr.1) sr.2)
    else if sr.2.length ≠ 0 then
      some (applyRefinementsToSchema (schema0.getD ZSchema.any) sr.2)
    else schema0
  applyCardinality (schema1.getD ZSchema.any) e.min e.max
termination_by (sizeOf e, 1)
decreasing_by
  exact Prod.Lex.right _ (by omega)

/-- `createShape(intermediate)`: process the children, then the element's
own slicing (only the branch with at least one slice contributes a
refinement; the others only log). -/
def createShape (ctx : ConvertCtx) (e : IntermediateStructureElement) :
    Shape × List (Json → List String) :=
  let st := shapeChildren ctx e.children ([], [])
  if e.sliceName.isSome ∧ (e.constraint ≠ [] ∨ 0 < e.min) then st
  else if 0 < slicesLength e.slicing then pushOpt st (ctx.sliceRef e)
  else st
termination_by (sizeOf e, 0)
decreasing_by
  exact Prod.Lex.left _ _ (sizeOf_children_lt e)

/-- The `intermediate.__children.forEach(...)` loop of `createShape`. -/
def shapeChildren (ctx : ConvertCtx) (cs : List IntermediateStructureElement)
    (st : Shape × List (Json → List String)) : Shape × List (Json → List String) :=
  match cs with
  | [] => st
  | child :: rest =>
    let st1 :=
      if jsEndsWith child.fieldName "[x]" then
        let pfx := jsDropRight child.fieldName 3
        let st2 := variantLoop ctx child pfx child.types st
        (st2.1, st2.2 ++ [MustHaveAtMostOneFieldStartingWith pfx])
      else
        pushOpt (addChild ctx (ctx.sliceRef child) child.fieldName child.type
          child.constraint child.children child.min child.max st) (ctx.sliceRef child)
    shapeChildren ctx rest st1
termination_by (sizeOf cs, 0)
decreasing_by
  all_goals refine Prod.Lex.left _ _ ?_
  all_goals first
    | exact children_lt_cons _ _
    | exact children_lt_cons0 _ _
    | exact tail_lt_cons _ _

/-- The `child.types.forEach(...)` loop of the choice-of-type branch: one
optional field per candidate type, plus the (duplicated) slicing refinement
of the original child per iteration. -/
def variantLoop (ctx : ConvertCtx) (child : IntermediateStructureElement)
    (pfx : String) (ts : List String) (st : Shape × List (Json → List String)) :
    Shape × List (Json → List String) :=
  match ts with
  | [] => st
  | t :: rest =>
    let variantFieldName := pfx ++ capitalizeFirstLetter t
    let st1 := addChild ctx (ctx.sliceRef (variantElem child variantFieldName t))
      variantFieldName t child.constraint child.children 0 1 st
    let st2 := pushOpt st1 (ctx.sliceRef child)
    variantLoop ctx child pfx rest st2
termination_by (sizeOf child.children + 1, ts.length)
decreasing_by
  all_goals first
    | exact Prod.Lex.left _ _ (Nat.lt_succ_self _)
    | exact Prod.Lex.right _ (by simp)

/-- `addChild(child)` of `createShape`, with the consumed fields of the
child element passed explicitly (`selfRef` is `createRefinementForSlices`
applied to the child). -/
def addChild (ctx : ConvertCtx) (selfRef : Option (Json → List String))
    (fieldName ctype : String) (constraints : List ElementConstraint)
    (children : List IntermediateStructureElement) (cmin cmax : Nat)
    (st : Shape × List (Json → List String)) : Shape × List (Json → List String) :=
  let s0 := (ctx.resolveSchema ctype).getD ZSchema.any
  let s1 := constraints.foldl (fun acc c => ZSchema.refine acc (ctx.cref c)) s0
  let refs1 := st.2 ++ (match selfRef with | some f => [f] | none => [])
  let s2 :=
    if children.isEmpty then s1
    else ZSchema.and_ s1 (ZSchema.object (childrenShapeList ctx children []))
  (upsertShape st.1 fieldName (applyCardinality s2 cmin cmax), refs1)
termination_by (sizeOf children, 1)
decreasing_by
  exact Prod.Lex.right _ (by omega)

/-- The grandchildren loop of `addChild`. -/
def childrenShapeList (ctx : ConvertCtx) (cs : List IntermediateStructureElement)
    (acc : Shape) : Shape :=
  match cs with
  | [] => acc
  | gc :: rest =>
    childrenShapeList ctx rest (upsertShape acc gc.fieldName (createSchema ctx gc none))
termination_by (sizeOf cs, 0)
decreasing_by
  all_goals refine Prod.Lex.left _ _ ?_
  all_goals first
    | exact head_lt_cons _ _
    | exact tail_lt_cons _ _
end

/-- Trivial external collaborators for the C7 witness: no resolvable
schemas, constraint refinements that add no issues, no slicing
refinements, no static schemas. -/
def ctxW : ConvertCtx :=
  ⟨fun _ => none, fun _ _ => [], fun _ => none, fun _ => none⟩

/-- The `value[x]` choice-of-type element of the C7 witness. -/
def childW : IntermediateStructureElement :=
  .mk none "Extension.value[x]" none "value[x]" 0 1 "choice-of-type"
    ["boolean", "string"] none none [] [] none

/-- The parent element of the C7 witness: its only child is `childW`. -/
def elemW : IntermediateStructureElement :=
  .mk none "Extension" none "" 1 1 "Extension" [] none none [] [childW] none

/-- A document with two sibling fields of the `value[x]` group. -/
def fieldsW : List (String × Json) :=
  [("valueBoolean", Json.bool true), ("valueString", Json.str "abc")]

/-- The parsed contents of a resource file, as consulted by the
overlap-removal filters. -/
structure ResourceObject where
  status : Option String := none
  experimental : Option Bool := none
  date : Option String := none
deriving Repr, DecidableEq

/-- `EnrichedResourceFile`: a resource file paired with its parsed data. -/
structure EnrichedResourceFile where
  file : ResourceFile
  data : ResourceObject
deriving Repr, DecidableEq

/-- JS truthiness of an optional string property (absent, `null` and the
empty string are falsy). -/
def jsTruthyStr : Option String → Bool
  | none => false
  | some s => !(s == "")

/-- `filterNonRetiredOnly`. -/
def filterNonRetiredOnly (f : EnrichedResourceFile) : Bool :=
  !(f.data.status == some "retired")

/-- `filterActiveOnly`. -/
def filterActiveOnly (f : EnrichedResourceFile) : Bool :=
  f.data.status == some "active"

/-- `filterNonExperimentalOnly`. -/
def filterNonExperimentalOnly (f : EnrichedResourceFile) : Bool :=
  f.data.experimental == some false

/-- `sortEnrichedFilesMostRecentFirst`: descending by date when both dates
are truthy, otherwise 0. -/
def sortMostRecentFirst (a b : EnrichedResourceFile) : Int :=
  if jsTruthyStr a.data.date && jsTruthyStr b.data.date then
    localeCompare (b.data.date.getD "") (a.data.date.getD "")
  else 0

/-- `filterEnrichedFiles(files, ...filterFunctions)`.  Each filter is applied
to the *enclosing* `enrichedFiles` list (`full`), not to the `files`
parameter — a faithful copy of the closure capture in the source. -/
def filterEnrichedFiles (full : List EnrichedResourceFile) :
    List (EnrichedResourceFile → Bool) → List EnrichedResourceFile →
      List EnrichedResourceFile
  | fns, files =>
    if 1 < files.length then
      match fns with
      | [] => files
      | fn :: rest =>
        let subset := full.filter fn
        if subset.length = full.length then
          if 0 < rest.length then filterEnrichedFiles full rest subset
          else files
        else if subset.length = 1 then subset.take 1
        else if 1 < subset.length then
          if 0 < rest.length then filterEnrichedFiles full rest subset
          else files
        else files
    else files

/-- `removeOverlappingDefinitions(resourceFiles)`. -/
def removeOverlappingDefinitions (parse : String → ResourceObject)
    (resourceFiles : List ResourceFile) : List ResourceFile :=
  let uniqueUrls := uniqueStr (resourceFiles.map (fun f => f.url))
  uniqueUrls.flatMap (fun url =>
    let overlappingFiles := resourceFiles.filter (fun f => f.url == url)
    if overlappingFiles.length = 1 then overlappingFiles
    else
      let enrichedFiles := overlappingFiles.map
        (fun f => EnrichedResourceFile.mk f (parse f.filePath))
      let filtered := filterEnrichedFiles enrichedFiles
        [filterActiveOnly, filterNonRetiredOnly, filterNonExperimentalOnly]
        enrichedFiles
      if filtered.length = 1 then
        match filtered with
        | e :: _ => [e.file]
        | [] => []
      else
        let sortedFiles := filtered.mergeSort
          (fun a b => decide (sortMostRecentFirst a b ≤ 0))
        match sortedFiles with
        | e :: _ => [e.file]
        | [] => [])

/-- The parsed data for the C8 scenario: identical `status`, `experimental`
and (absent) `date` metadata for every file. -/
def parseW8 : String → ResourceObject :=
  fun _ => { status := some "active", experimental := some false, date := none }

/-- First of two files registered under the same URL. -/
def fA8 : ResourceFile :=
  { filePath := "a.json", resourceType := "StructureDefinition",
    url := "http://example.org/overlap" }

/-- Second of two files registered under the same URL (different path). -/
def fB8 : ResourceFile :=
  { filePath := "b.json", resourceType := "StructureDefinition",
    url := "http://example.org/overlap" }

/-- The parts of a snapshot `ElementDefinition` read by the root-element
check of `convertStructureDefinitionToIntermediateFormat`. -/
structure SnapshotElement where
  id : Option String := none
  path : String := ""
deriving Repr, DecidableEq

/-- The parts of a `StructureDefinition` resource read by the conversion's
root-element check. -/
structure StructureDefinitionData where
  url : Option String := none
  type : String := ""
  kind : Option String := none
  elements : List SnapshotElement := []
deriving Repr, DecidableEq

/-- `elements.find((element) => element.id === sd.type)`. -/
def findRootElement (sd : StructureDefinitionData) : Option SnapshotElement :=
  sd.elements.find? (fun e => e.id == some sd.type)

/-- The root-element guard of
`convertStructureDefinitionToIntermediateFormat` (intermediate-format.ts):
`throw new Error` when no snapshot element's id equals `sd.type`. -/
def convertStructureDefinitionRootStep (sd : StructureDefinitionData) :
    Except String SnapshotElement :=
  match findRootElement sd with
  | none => Except.error "Could not find root element for StructureDefinition"
  | some root => Except.ok root

/-- The `IntermediateFormat` record produced by a successful conversion. -/
structure IntermediateFormat where
  kind : Option String := none
  type : String := ""
  url : Option String := none
  baseDefinition : Option String := none
  struct : IntermediateStructureElement

/-- `{...imf.structure, min: 1, max: 1}`. -/
def withCardOneOne (e : IntermediateStructureElement) :
    IntermediateStructureElement :=
  .mk e.id e.path e.sliceName e.fieldName 1 1 e.type e.types e.patternValue
    e.fixedValue e.constraint e.children e.slicing

/-- The tail of `convertToSchema` (conversion.ts): build the root schema and,
for `kind === "resource"`, require an optional string `resourceType` field. -/
def convertToSchema (ctx : ConvertCtx) (imf : IntermediateFormat) : ZSchema :=
  let schema := createSchema ctx (withCardOneOne imf.struct) imf.baseDefinition
  if imf.kind == some "resource" then
    ZSchema.and_ schema
      (ZSchema.object [("resourceType", ZSchema.optional (ZSchema.string 0))])
  else schema

/-- `Object.keys(data).length` for a JSON value. -/
def jsKeysCount : Json → Nat
  | .obj fields => fields.length
  | .arr xs => xs.length
  | .str s => s.length
  | _ => 0

/-- The `superRefine` added by `buildSchemaForComplexType`: an issue when the
parsed data has no keys. -/
def objectContentRefinement : Json → List String :=
  fun v => if jsKeysCount v = 0 then ["Object must have some content"] else []

/-- `buildSchemaForComplexType`: the conversion pipeline
(`convertStructureDefinitionToIntermediateFormat` then `convertToSchema`)
runs inside `try`; its outcome is the `conv` argument (`Except.error` models
a thrown exception), and `catch` returns `z.any().optional()`. -/
def buildSchemaForComplexType (ctx : ConvertCtx)
    (conv : Except String IntermediateFormat) : ZSchema :=
  match conv with
  | .error _ => ZSchema.optional ZSchema.any
  | .ok imf =>
    ZSchema.refine (convertToSchema ctx imf) objectContentRefinement

/-- The per-file loop of `generateZodSchemasForResourceFiles`, restricted to
ValueSet resource files (`processResource` dispatches on `resourceType`; the
other branches are irrelevant here).  The loop body does not catch, so in the
`Except` monad an error from `processValueSetResource` aborts the whole
generation. -/
def generateSchemasForValueSetFiles (re : String → String → Bool)
    (files : List (ResourceFile × ValueSet))
    (resolveSchema : String → Option ZSchema)
    (rr : String → Option ConceptHierarchy) :
    Except String (List (String × ZSchema)) :=
  files.foldlM
    (fun acc fv => do
      let r ← processValueSetResource re fv.1 fv.2 resolveSchema rr
      Except.ok (acc ++ [(fv.1.url, r.1)]))
    []

/-- A ValueSet whose single `compose.include` entry is `{}` — neither a
`valueSet` reference nor a `system`. -/
def vsBad : ValueSet :=
  { compose := some { incl := some [{}] } }

/-- The resource file carrying `vsBad`. -/
def fileVS9 : ResourceFile :=
  { filePath := "bad.json", resourceType := "ValueSet",
    url := "http://example.org/bad-vs" }

/-- Concrete StructureDefinition data with no root element: its only
snapshot element's id is `Foo`, but the declared type is `Patient`. -/
def sd9 : StructureDefinitionData :=
  { url := some "http://example.org/sd9", type := "Patient",
    elements := [{ id := some "Foo", path := "Foo" }] }

/-- `ValidateOptions`. -/
structure ValidateOptions where
  profiles : Option (List String) := none
  ignoreSelfDeclaredProfiles : Bool := false
  ignoreUnknownSchemas : Bool := false
deriving Repr, DecidableEq

/-- `ValidationResult`. -/
structure ValidationResult where
  success : Bool
  data : Option Json := none
  errors : Option (List String) := none

/-- `resource.meta?.profile || []` (string entries). -/
def metaProfiles (resource : Json) : List String :=
  match resource with
  | .obj fields =>
    match jsonLookup fields "meta" with
    | some (.obj mfields) =>
      match jsonLookup mfields "profile" with
      | some (.arr xs) =>
        xs.filterMap (fun x => match x with | .str s => some s | _ => none)
      | _ => []
    | _ => []
  | _ => []

/-- The truthy top-level `url` of the resource, if any. -/
def resourceUrlKey (resource : Json) : Option String :=
  match resource with
  | .obj fields =>
    match jsonLookup fields "url" with
    | some (.str s) => if s = "" then none else some s
    | _ => none
  | _ => none

/-- `FhirValidator.validate(resource, options)` on an already-parsed
resource object. -/
def FhirValidatorValidate (re : String → String → Bool)
    (schemas : List (String × ZSchema)) (resource : Json)
    (options : Option ValidateOptions) : ValidationResult :=
  if schemas.length = 0 then
    { success := false, errors := some ["0 schemas loaded"] }
  else
    let optProfiles := (options.map (fun o => o.profiles.getD [])).getD []
    let ignoreSelf :=
      (options.map (fun o => o.ignoreSelfDeclaredProfiles)).getD false
    let ignoreUnknown :=
      (options.map (fun o => o.ignoreUnknownSchemas)).getD false
    let profiles := optProfiles ++
      (if ignoreSelf then [] else metaProfiles resource) ++
      (match resourceUrlKey resource with | some u => [u] | none => [])
    let errors := (profiles.map (fun profile =>
      match shapeLookup schemas profile with
      | some schema =>
        if accepts re schema resource then []
        else ["validation issues for " ++ profile]
      | none =>
        if ignoreUnknown then []
        else ["Could not find schema for " ++ profile])).flatten
    if errors.length = 0 then { success := true, data := some resource }
    else { success := false, errors := some (uniqueStr errors) }

/-- A schema map holding only a `z.never()` schema: every schema check on
any document would fail. -/
def schemas10 : List (String × ZSchema) :=
  [("http://example.org/profile", ZSchema.never)]

/-- A thoroughly malformed FHIR document with no `meta.profile` and no
`url`. -/
def garbage10 : Json :=
  Json.obj [("resourceType", Json.str "NotARealResource"),
    ("fhirIsGreat", Json.num 42)]

theorem markedB_iff (s : TopoState) (n : String) : markedB s n = true ↔ markedP s n := by
  simp [markedB, markedP]

theorem stateExtends_refl (s : TopoState) : StateExtends s s :=
  ⟨⟨[], by simp⟩, ⟨[], by simp⟩, ⟨[], by simp⟩, ⟨[], by simp⟩⟩

theorem stateExtends_trans {s t u : TopoState} (h1 : StateExtends s t)
    (h2 : StateExtends t u) : StateExtends s u := by
  obtain ⟨⟨a1, e1⟩, ⟨a2, e2⟩, ⟨a3, e3⟩, ⟨a4, e4⟩⟩ := h1
  obtain ⟨⟨b1, f1⟩, ⟨b2, f2⟩, ⟨b3, f3⟩, ⟨b4, f4⟩⟩ := h2
  exact ⟨⟨a1 ++ b1, by simp [f1, e1]⟩, ⟨a2 ++ b2, by simp [f2, e2]⟩,
    ⟨a3 ++ b3, by simp [f3, e3]⟩, ⟨a4 ++ b4, by simp [f4, e4]⟩⟩

theorem markedP_mono {s t : TopoState} (h : StateExtends s t) {n : String}
    (hn : markedP s n) : markedP t n := by
  obtain ⟨-, ⟨d2, e2⟩, ⟨d3, e3⟩, -⟩ := h
  rcases hn with h | h
  · exact Or.inl (by simp [e3, h])
  · exact Or.inr (by simp [e2, h])

theorem not_markedB_iff (s : TopoState) (n : String) :
    (! markedB s n) = true ↔ ¬ markedP s n := by
  simp [markedB, markedP]

theorem countP_lt_of_flip {α : Type} {p q : α → Bool} {l : List α} {x : α}
    (hx : x ∈ l) (hpx : p x = true) (hqx : q x = false)
    (himp : ∀ a, q a = true → p a = true) : l.countP q < l.countP p := by
  induction l with
  | nil => cases hx
  | cons a l ih =>
    have hmono : l.countP q ≤ l.countP p :=
      List.countP_mono_left fun a _ h => himp a h
    rcases List.mem_cons.mp hx with rfl | hx
    · have h1 : (x :: l).countP q = l.countP q := by
        rw [List.countP_cons, hqx]
        simp
      have h2 : (x :: l).countP p = l.countP p + 1 := by
        rw [List.countP_cons, hpx]
        simp
      omega
    · have h3 := ih hx
      have h1 : (a :: l).countP q = l.countP q + (if q a = true then 1 else 0) :=
        List.countP_cons q a l
      have h2 : (a :: l).countP p = l.countP p + (if p a = true then 1 else 0) :=
        List.countP_cons p a l
      by_cases hqa : q a = true
      · rw [h1, h2, if_pos hqa, if_pos (himp a hqa)]
        omega
      · rw [h1, h2, if_neg hqa]
        by_cases hpa : p a = true
        · rw [if_pos hpa]; omega
        · rw [if_neg hpa]; omega

theorem unmarked_le {m : DepMap} {s t : TopoState}
    (h : ∀ n, markedP s n → markedP t n) :
    unmarkedCount m t ≤ unmarkedCount m s := by
  refine List.countP_mono_left fun a _ ha => ?_
  rw [not_markedB_iff] at ha ⊢
  exact fun hs => ha (h a hs)

theorem unmarked_lt {m : DepMap} {s t : TopoState} {node : String}
    (hx : node ∈ allNodesRaw m) (hun : ¬ markedP s node) (hmk : markedP t node)
    (h : ∀ n, markedP s n → markedP t n) :
    unmarkedCount m t < unmarkedCount m s := by
  refine countP_lt_of_flip hx ((not_markedB_iff s node).mpr hun) ?_ ?_
  · have : markedB t node = true := (markedB_iff t node).mpr hmk
    simp [this]
  · intro a ha
    rw [not_markedB_iff] at ha ⊢
    exact fun hs => ha (h a hs)

theorem dfsRun_eq_visited {m : DepMap} {fuel : Nat} {node : String} {path : List String}
    {s : TopoState} (h : node ∈ s.visited) :
    dfsRun m (fuel + 1) node path s = (false, s) := by
  simp only [dfsRun, if_pos h]

theorem dfsRun_eq_visiting {m : DepMap} {fuel : Nat} {node : String} {path : List String}
    {s : TopoState} (h1 : node ∉ s.visited) (h2 : node ∈ s.visiting) :
    dfsRun m (fuel + 1) node path s =
      (true, { s with cycles := s.cycles ++ [path] }) := by
  simp only [dfsRun, if_neg h1, if_pos h2]

theorem dfsRun_eq_fresh {m : DepMap} {fuel : Nat} {node : String} {path : List String}
    {s : TopoState} (h1 : node ∉ s.visited) (h2 : node ∉ s.visiting) :
    dfsRun m (fuel + 1) node path s =
      (if (dfsStep (fun n s2 => dfsRun m fuel n (path ++ [node]) s2) (depsOf m node)
            { s with visiting := s.visiting ++ [node] }).1 then
        dfsStep (fun n s2 => dfsRun m fuel n (path ++ [node]) s2) (depsOf m node)
          { s with visiting := s.visiting ++ [node] }
      else
        (false,
          { (dfsStep (fun n s2 => dfsRun m fuel n (path ++ [node]) s2) (depsOf m node)
                { s with visiting := s.visiting ++ [node] }).2 with
              visiting := (dfsStep (fun n s2 => dfsRun m fuel n (path ++ [node]) s2)
                (depsOf m node) { s with visiting := s.visiting ++ [node] }).2.visiting.erase node
              visited := (dfsStep (fun n s2 => dfsRun m fuel n (path ++ [node]) s2)
                (depsOf m node) { s with visiting := s.visiting ++ [node] }).2.visited ++ [node]
              sorted := (dfsStep (fun n s2 => dfsRun m fuel n (path ++ [node]) s2)
                (depsOf m node) { s with visiting := s.visiting ++ [node] }).2.sorted ++ [node] })) := by
  simp only [dfsRun, if_neg h1, if_neg h2]

theorem dfsStep_cons_true {f : String → TopoState → Bool × TopoState} {n : String}
    {ns : List String} {s : TopoState} (h : (f n s).1 = true) :
    dfsStep f (n :: ns) s = f n s := by
  simp [dfsStep, h]

theorem dfsStep_cons_false {f : String → TopoState → Bool × TopoState} {n : String}
    {ns : List String} {s : TopoState} (h : (f n s).1 = false) :
    dfsStep f (n :: ns) s = dfsStep f ns (f n s).2 := by
  simp [dfsStep, h]

theorem dfsStep_base {f : String → TopoState → Bool × TopoState} (Hf : CallBase f) :
    ∀ (ns : List String) (s : TopoState),
      StateExtends s (dfsStep f ns s).2 ∧
      ((dfsStep f ns s).1 = false → (dfsStep f ns s).2.visiting = s.visiting ∧
        ∀ n ∈ ns, n ∈ (dfsStep f ns s).2.visited) ∧
      (∀ x, x ∈ s.visiting → x ∉ s.visited →
        x ∈ (dfsStep f ns s).2.visiting ∧ x ∉ (dfsStep f ns s).2.visited) := by
  intro ns
  induction ns with
  | nil =>
    intro s
    refine ⟨stateExtends_refl s, fun _ => ⟨rfl, by simp⟩, fun x hx hnx => ⟨hx, hnx⟩⟩
  | cons n ns ih =>
    intro s
    obtain ⟨hext, hfalse, hkeep⟩ := Hf n s
    by_cases hr : (f n s).1 = true
    · rw [dfsStep_cons_true hr]
      exact ⟨hext, fun hc => absurd hr (by simp [hc]), hkeep⟩
    · simp only [Bool.not_eq_true] at hr
      rw [dfsStep_cons_false hr]
      obtain ⟨hvis, hmem⟩ := hfalse hr
      obtain ⟨ihext, ihfalse, ihkeep⟩ := ih (f n s).2
      refine ⟨stateExtends_trans hext ihext, ?_, ?_⟩
      · intro hres
        obtain ⟨ihvis, ihmem⟩ := ihfalse hres
        refine ⟨ihvis.trans hvis, ?_⟩
        intro d hd
        rcases List.mem_cons.mp hd with rfl | hd
        · obtain ⟨-, ⟨dd, hdd⟩, -, -⟩ := ihext
          rw [hdd]
          exact List.mem_append_left _ hmem
        · exact ihmem d hd
      · intro x hx hnx
        obtain ⟨hx2, hnx2⟩ := hkeep x hx hnx
        exact ihkeep x hx2 hnx2

theorem dfsRun_base (m : DepMap) :
    ∀ (fuel : Nat) (path : List String), CallBase (fun node s => dfsRun m fuel node path s) := by
  intro fuel
  induction fuel with
  | zero =>
    intro path node s
    dsimp only
    refine ⟨stateExtends_refl s, ?_, fun x hx hnx => ⟨hx, hnx⟩⟩
    intro hc
    simp [dfsRun] at hc
  | succ fuel ih =>
    intro path node s
    dsimp only
    by_cases hvd : node ∈ s.visited
    · rw [dfsRun_eq_visited hvd]
      exact ⟨stateExtends_refl s, fun _ => ⟨rfl, hvd⟩, fun x hx hnx => ⟨hx, hnx⟩⟩
    · by_cases hvg : node ∈ s.visiting
      · rw [dfsRun_eq_visiting hvd hvg]
        refine ⟨⟨⟨[], by simp⟩, ⟨[], by simp⟩, ⟨[], by simp⟩, ⟨[path], rfl⟩⟩, ?_,
          fun x hx hnx => ⟨hx, hnx⟩⟩
        intro hc
        simp at hc
      · rw [dfsRun_eq_fresh hvd hvg]
        set s1 : TopoState := { s with visiting := s.visiting ++ [node] } with hs1
        obtain ⟨lext, lfalse, lkeep⟩ :=
          dfsStep_base (ih (path ++ [node])) (depsOf m node) s1
        have hes1 : StateExtends s s1 :=
          ⟨⟨[], by simp [hs1]⟩, ⟨[], by simp [hs1]⟩, ⟨[node], by simp [hs1]⟩,
            ⟨[], by simp [hs1]⟩⟩
        set r := dfsStep (fun n s2 => dfsRun m fuel n (path ++ [node]) s2)
          (depsOf m node) s1 with hr
        by_cases hb : r.1 = true
        · rw [if_pos hb]
          refine ⟨stateExtends_trans hes1 lext, ?_, ?_⟩
          · intro hc
            rw [hb] at hc
            cases hc
          · intro x hx hnx
            have hx1 : x ∈ s1.visiting := by simp [hs1, hx]
            have hnx1 : x ∉ s1.visited := by simpa [hs1] using hnx
            exact lkeep x hx1 hnx1
        · simp only [Bool.not_eq_true] at hb
          rw [if_neg (by simp [hb])]
          obtain ⟨hvis, hmem⟩ := lfalse hb
          have hvr : r.2.visiting = s.visiting ++ [node] := by
            rw [hvis]
          have herase : r.2.visiting.erase node = s.visiting := by
            rw [hvr, List.erase_append_right _ hvg, List.erase_cons_head, List.append_nil]
          refine ⟨?_, ?_, ?_⟩
          · obtain ⟨⟨d1, e1⟩, ⟨d2, e2⟩, -, ⟨d4, e4⟩⟩ := stateExtends_trans hes1 lext
            exact ⟨⟨d1 ++ [node], by simp [e1]⟩, ⟨d2 ++ [node], by simp [e2]⟩,
              ⟨[], by simp [herase]⟩, ⟨d4, e4⟩⟩
          · intro _
            exact ⟨herase, by simp⟩
          · intro x hx hnx
            have hx1 : x ∈ s1.visiting := by simp [hs1, hx]
            have hnx1 : x ∉ s1.visited := by simpa [hs1] using hnx
            obtain ⟨hx2, hnx2⟩ := lkeep x hx1 hnx1
            have hxne : x ≠ node := fun h => hvg (h ▸ hx)
            refine ⟨by simpa [herase] using hx, ?_⟩
            intro hmem2
            rcases List.mem_append.mp hmem2 with h | h
            · exact hnx2 h
            · exact hxne (by simpa using h)

theorem jinv_snoc {m : DepMap} {L : List String} {node : String}
    (hJ : ∀ i (h : i < L.length), ∀ d ∈ depsOf m (L.get ⟨i, h⟩), d ∈ L.take i)
    (hdeps : ∀ d ∈ depsOf m node, d ∈ L) :
    ∀ i (h : i < (L ++ [node]).length),
      ∀ d ∈ depsOf m ((L ++ [node]).get ⟨i, h⟩), d ∈ (L ++ [node]).take i := by
  intro i h d hd
  rcases Nat.lt_or_ge i L.length with hi | hi
  · have hget : (L ++ [node]).get ⟨i, h⟩ = L.get ⟨i, hi⟩ := by
      simp [List.get_eq_getElem, List.getElem_append_left hi]
    rw [hget] at hd
    have := hJ i hi d hd
    rw [List.take_append_of_le_length (Nat.le_of_lt hi)]
    exact this
  · have hlen : i = L.length := by
      simp only [List.length_append, List.length_singleton] at h
      omega
    have hget : (L ++ [node]).get ⟨i, h⟩ = node := by
      subst hlen
      simp [List.get_eq_getElem, List.getElem_append_right (Nat.le_refl _)]
    rw [hget] at hd
    subst hlen
    rw [List.take_left]
    exact hdeps d hd

/-- `GoodState` is preserved by the neighbour loop, given that it is
preserved by each call. -/
theorem dfsStep_good {m : DepMap} {f : String → TopoState → Bool × TopoState}
    (Hgood : ∀ n s, GoodState m s → GoodState m (f n s).2) :
    ∀ (ns : List String) (s : TopoState), GoodState m s → GoodState m (dfsStep f ns s).2 := by
  intro ns
  induction ns with
  | nil => intro s hs; exact hs
  | cons n ns ih =>
    intro s hs
    by_cases hr : (f n s).1 = true
    · rw [dfsStep_cons_true hr]
      exact Hgood n s hs
    · simp only [Bool.not_eq_true] at hr
      rw [dfsStep_cons_false hr]
      exact ih _ (Hgood n s hs)

/-- `GoodState` is preserved by the depth-first traversal (on every graph,
cyclic or not). -/
theorem dfsRun_good (m : DepMap) :
    ∀ (fuel : Nat) (path : List String) (node : String) (s : TopoState),
      GoodState m s → GoodState m (dfsRun m fuel node path s).2 := by
  intro fuel
  induction fuel with
  | zero =>
    intro path node s hs
    simpa [dfsRun] using hs
  | succ fuel ih =>
    intro path node s hs
    by_cases hvd : node ∈ s.visited
    · rw [dfsRun_eq_visited hvd]
      exact hs
    · by_cases hvg : node ∈ s.visiting
      · rw [dfsRun_eq_visiting hvd hvg]
        exact hs
      · rw [dfsRun_eq_fresh hvd hvg]
        set s1 : TopoState := { s with visiting := s.visiting ++ [node] } with hs1
        have hgs1 : GoodState m s1 := by
          obtain ⟨h1, h2, h3⟩ := hs
          exact ⟨h1, h2, h3⟩
        set r := dfsStep (fun n s2 => dfsRun m fuel n (path ++ [node]) s2)
          (depsOf m node) s1 with hr
        have hgr : GoodState m r.2 :=
          dfsStep_good (fun n s2 hgood => ih (path ++ [node]) n s2 hgood)
            (depsOf m node) s1 hgs1
        by_cases hb : r.1 = true
        · rw [if_pos hb]
          exact hgr
        · simp only [Bool.not_eq_true] at hb
          rw [if_neg (by simp [hb])]
          obtain ⟨lext, lfalse, lkeep⟩ :=
            dfsStep_base (dfsRun_base m fuel (path ++ [node])) (depsOf m node) s1
          obtain ⟨hvis, hmem⟩ := lfalse hb
          have hnode_nvd : node ∉ r.2.visited := by
            have hx1 : node ∈ s1.visiting := by simp [hs1]
            have hnx1 : node ∉ s1.visited := by simpa [hs1] using hvd
            exact (lkeep node hx1 hnx1).2
          obtain ⟨g1, g2, g3⟩ := hgr
          have hnode_ns : node ∉ r.2.sorted := fun hmem2 => hnode_nvd ((g1 node).mpr hmem2)
          refine ⟨?_, ?_, ?_⟩
          · intro n
            simp only [List.mem_append, List.mem_singleton]
            exact or_congr (g1 n) Iff.rfl
          · simpa [List.nodup_append] using ⟨g2, hnode_ns⟩
          · exact jinv_snoc g3 (fun d hd => (g1 d).mp (hmem d hd))

theorem chain'_head_to_last {E : String → String → Prop} :
    ∀ (l : List String) (x : String), List.Chain' E (x :: l) →
      Relation.ReflTransGen E x ((x :: l).getLast (List.cons_ne_nil x l)) := by
  intro l
  induction l with
  | nil =>
    intro x _
    simp only [List.getLast_singleton]
    exact Relation.ReflTransGen.refl
  | cons b l ih =>
    intro x hch
    have hxb : E x b := (List.chain'_cons.mp hch).1
    have hch2 : List.Chain' E (b :: l) := (List.chain'_cons.mp hch).2
    have hlast : (x :: b :: l).getLast (List.cons_ne_nil x (b :: l)) =
        (b :: l).getLast (List.cons_ne_nil b l) := by
      simp [List.getLast_cons]
    rw [hlast]
    exact Relation.ReflTransGen.head hxb (ih b hch2)

/-- A back edge closing onto the current DFS path produces a genuine cycle. -/
theorem cycle_of_back_edge {E : String → String → Prop} :
    ∀ (p : List String) (node : String) (hne : p ≠ []),
      List.Chain' E p → E (p.getLast hne) node → node ∈ p →
      Relation.TransGen E node node := by
  intro p
  induction p with
  | nil => intro node hne; cases hne rfl
  | cons a l ih =>
    intro node hne hch hedge hmem
    rcases List.mem_cons.mp hmem with rfl | hmem
    · exact Relation.TransGen.tail' (chain'_head_to_last l node hch) hedge
    · have hlne : l ≠ [] := List.ne_nil_of_mem hmem
      have hlast : (a :: l).getLast hne = l.getLast hlne := List.getLast_cons hlne
      exact ih node hlne (List.Chain'.tail hch) (hlast ▸ hedge) hmem

theorem lookupMap_mem {m : DepMap} {k : String} {v : List String}
    (h : lookupMap m k = some v) : (k, v) ∈ m := by
  induction m with
  | nil => simp [lookupMap] at h
  | cons p rest ih =>
    obtain ⟨k0, v0⟩ := p
    by_cases hk : k0 = k
    · subst hk
      have hv : some v0 = some v := by simpa [lookupMap] using h
      obtain rfl : v0 = v := Option.some.inj hv
      exact List.mem_cons_self _ _
    · simp only [lookupMap, if_neg hk] at h
      exact List.mem_cons_of_mem _ (ih h)

theorem mem_deps_allNodes {m : DepMap} {u d : String} (h : d ∈ depsOf m u) :
    d ∈ allNodesRaw m := by
  unfold depsOf at h
  cases hlk : lookupMap m u with
  | none => rw [hlk] at h; simp at h
  | some v =>
    rw [hlk] at h
    simp only [Option.getD_some] at h
    have hmem : (u, v) ∈ m := lookupMap_mem hlk
    refine List.mem_append_right _ ?_
    rw [List.mem_flatten]
    exact ⟨v, List.mem_map_of_mem Prod.snd hmem, h⟩

theorem depsOf_ne_nil_key {m : DepMap} {u : String} (h : depsOf m u ≠ []) :
    u ∈ m.map Prod.fst := by
  unfold depsOf at h
  cases hlk : lookupMap m u with
  | none => rw [hlk] at h; simp at h
  | some v =>
    exact List.mem_map_of_mem Prod.fst (lookupMap_mem hlk)

/-- Under acyclicity, every DFS call on a node reachable along the current
chain returns `false`, never records a cycle, and (by `dfsRun_base`) restores
`visiting`.  Fuel is controlled by the unmarked-node count. -/
theorem dfsRun_acyc (m : DepMap) (hacyc : Acyclic m) :
    ∀ (fuel : Nat) (node : String) (path : List String) (s : TopoState),
      unmarkedCount m s < fuel → node ∈ allNodesRaw m → s.visiting = path →
      List.Chain' (DepEdge m) path →
      (∀ h : path ≠ [], DepEdge m (path.getLast h) node) →
      (dfsRun m fuel node path s).1 = false ∧
        (dfsRun m fuel node path s).2.cycles = s.cycles := by
  intro fuel
  induction fuel with
  | zero =>
    intro node path s hfu
    omega
  | succ fuel ih =>
    intro node path s hfu hnode hvis hch hlast
    by_cases hvd : node ∈ s.visited
    · rw [dfsRun_eq_visited hvd]
      exact ⟨rfl, rfl⟩
    · by_cases hvg : node ∈ s.visiting
      · exfalso
        have hne : path ≠ [] := by
          intro hnil
          rw [hvis, hnil] at hvg
          cases hvg
        have hmem : node ∈ path := hvis ▸ hvg
        exact hacyc node (cycle_of_back_edge path node hne hch (hlast hne) hmem)
      · rw [dfsRun_eq_fresh hvd hvg]
        set s1 : TopoState := { s with visiting := s.visiting ++ [node] } with hs1
        have hun : ¬ markedP s node := fun hm => hm.elim hvg hvd
        have hmk : markedP s1 node := Or.inl (by simp [hs1])
        have hmono1 : ∀ n, markedP s n → markedP s1 n := by
          intro n hn
          rcases hn with hn | hn
          · exact Or.inl (by simp [hs1, hn])
          · exact Or.inr hn
        have hcnt : unmarkedCount m s1 < fuel := by
          have := unmarked_lt hnode hun hmk hmono1
          omega
        have hch1 : List.Chain' (DepEdge m) (path ++ [node]) := by
          rw [List.chain'_append]
          refine ⟨hch, List.chain'_singleton node, ?_⟩
          intro x hx y hy
          simp only [List.head?_cons, Option.mem_def, Option.some.injEq] at hy
          subst hy
          have hne : path ≠ [] := by
            intro hnil
            rw [hnil] at hx
            simp at hx
          rw [List.getLast?_eq_getLast path hne] at hx
          simp only [Option.mem_def, Option.some.injEq] at hx
          subst hx
          exact hlast hne
        have hvis1 : s1.visiting = path ++ [node] := by
          simp [hs1, hvis]
        have hlast1 : ∀ d ∈ depsOf m node,
            ∀ h : (path ++ [node]) ≠ [], DepEdge m ((path ++ [node]).getLast h) d := by
          intro d hd h
          rw [List.getLast_append]
          exact hd
        -- the neighbour loop: all calls return false, preserve cycles,
        -- restore `visiting`, and only shrink the unmarked count
        have hloop : ∀ (ns : List String),
            (∀ n ∈ ns, n ∈ allNodesRaw m ∧ n ∈ depsOf m node) →
            ∀ (s2 : TopoState), unmarkedCount m s2 < fuel →
              s2.visiting = path ++ [node] →
            (dfsStep (fun n s3 => dfsRun m fuel n (path ++ [node]) s3) ns s2).1 = false ∧
            (dfsStep (fun n s3 => dfsRun m fuel n (path ++ [node]) s3) ns s2).2.cycles
              = s2.cycles ∧
            (dfsStep (fun n s3 => dfsRun m fuel n (path ++ [node]) s3) ns s2).2.visiting
              = s2.visiting := by
          intro ns
          induction ns with
          | nil =>
            intro _ s2 _ _
            exact ⟨rfl, rfl, rfl⟩
          | cons n ns ihn =>
            intro hns s2 hcnt2 hvis2
            obtain ⟨hnAll, hnDep⟩ := hns n (List.mem_cons_self n ns)
            have hlastn : ∀ h : (path ++ [node]) ≠ [],
                DepEdge m ((path ++ [node]).getLast h) n := by
              intro h
              rw [List.getLast_append]
              exact hnDep
            obtain ⟨hb, hcyc⟩ := ih n (path ++ [node]) s2 hcnt2 hnAll hvis2 hch1 hlastn
            rw [dfsStep_cons_false hb]
            obtain ⟨hext, hfalse, hkeep⟩ := dfsRun_base m fuel (path ++ [node]) n s2
            obtain ⟨hvisr, hmemr⟩ := hfalse hb
            have hcnt3 : unmarkedCount m (dfsRun m fuel n (path ++ [node]) s2).2 < fuel :=
              lt_of_le_of_lt (unmarked_le (fun x hx => markedP_mono hext hx)) hcnt2
            have hvis3 : (dfsRun m fuel n (path ++ [node]) s2).2.visiting
                = path ++ [node] := hvisr.trans hvis2
            obtain ⟨hb2, hcyc2, hvis4⟩ :=
              ihn (fun x hx => hns x (List.mem_cons_of_mem n hx)) _ hcnt3 hvis3
            exact ⟨hb2, hcyc2.trans hcyc, hvis4.trans hvisr⟩
        obtain ⟨hb, hcyc, hvisL⟩ :=
          hloop (depsOf m node) (fun n hn => ⟨mem_deps_allNodes hn, hn⟩) s1 hcnt hvis1
        rw [if_neg (by simp [hb])]
        exact ⟨rfl, hcyc.trans (by simp [hs1])⟩

theorem topoLoop_good (m : DepMap) :
    ∀ (ks : List String) (s : TopoState), GoodState m s → GoodState m (topoLoop m ks s) := by
  intro ks
  induction ks with
  | nil => intro s hs; exact hs
  | cons k ks ih =>
    intro s hs
    by_cases hk : k ∈ s.visited
    · rw [topoLoop, if_pos hk]
      exact ih s hs
    · rw [topoLoop, if_neg hk]
      exact ih _ (dfsRun_good m (topoFuel m) [] k s hs)

theorem unmarked_lt_topoFuel (m : DepMap) (s : TopoState) :
    unmarkedCount m s < topoFuel m :=
  Nat.lt_succ_of_le (List.countP_le_length _)

theorem topoLoop_acyc (m : DepMap) (hacyc : Acyclic m) :
    ∀ (ks : List String) (s : TopoState),
      (∀ k ∈ ks, k ∈ allNodesRaw m) → s.visiting = [] →
      (topoLoop m ks s).cycles = s.cycles ∧ (topoLoop m ks s).visiting = [] ∧
        StateExtends s (topoLoop m ks s) ∧ (∀ k ∈ ks, k ∈ (topoLoop m ks s).visited) := by
  intro ks
  induction ks with
  | nil =>
    intro s _ hvis
    exact ⟨rfl, hvis, stateExtends_refl s, by simp⟩
  | cons k ks ih =>
    intro s hks hvis
    by_cases hk : k ∈ s.visited
    · rw [topoLoop, if_pos hk]
      obtain ⟨hcyc, hvis2, hext, hmem⟩ := ih s (fun x hx => hks x (List.mem_cons_of_mem k hx)) hvis
      refine ⟨hcyc, hvis2, hext, ?_⟩
      intro x hx
      rcases List.mem_cons.mp hx with rfl | hx
      · obtain ⟨-, ⟨d2, e2⟩, -, -⟩ := hext
        rw [e2]
        exact List.mem_append_left _ hk
      · exact hmem x hx
    · rw [topoLoop, if_neg hk]
      have hkAll : k ∈ allNodesRaw m := hks k (List.mem_cons_self k ks)
      obtain ⟨hb, hcyc1⟩ := dfsRun_acyc m hacyc (topoFuel m) k [] s
        (unmarked_lt_topoFuel m s) hkAll hvis List.chain'_nil (fun h => absurd rfl h)
      obtain ⟨hext1, hfalse1, -⟩ := dfsRun_base m (topoFuel m) [] k s
      obtain ⟨hvis1, hmem1⟩ := hfalse1 hb
      have hvis1' : (dfsRun m (topoFuel m) k [] s).2.visiting = [] := hvis1.trans hvis
      obtain ⟨hcyc2, hvis2, hext2, hmem2⟩ :=
        ih _ (fun x hx => hks x (List.mem_cons_of_mem k hx)) hvis1'
      refine ⟨hcyc2.trans hcyc1, hvis2, stateExtends_trans hext1 hext2, ?_⟩
      intro x hx
      rcases List.mem_cons.mp hx with rfl | hx
      · obtain ⟨-, ⟨d2, e2⟩, -, -⟩ := hext2
        rw [e2]
        exact List.mem_append_left _ hmem1
      · exact hmem2 x hx

/-- Full correctness of the cycle-tolerant sorter on acyclic inputs: no cycle
is reported, every key appears in the output, the output has no duplicates,
it is closed under dependencies, and a dependency always appears at a strictly
larger position of the output (the output lists dependants first because the
post-order accumulator is reversed). -/
theorem topo_acyclic_spec (m : DepMap) (hacyc : Acyclic m) :
    (topologicalSortWithTransitiveResolution m).cycles = [] ∧
    (topologicalSortWithTransitiveResolution m).sorted.Nodup ∧
    (∀ k ∈ m.map Prod.fst, k ∈ (topologicalSortWithTransitiveResolution m).sorted) ∧
    (∀ b ∈ (topologicalSortWithTransitiveResolution m).sorted, ∀ a ∈ depsOf m b,
      a ∈ (topologicalSortWithTransitiveResolution m).sorted) ∧
    (∀ (a b : String) (i j : Nat)
        (hi : i < (topologicalSortWithTransitiveResolution m).sorted.length)
        (hj : j < (topologicalSortWithTransitiveResolution m).sorted.length),
      a ∈ depsOf m b →
      (topologicalSortWithTransitiveResolution m).sorted.get ⟨i, hi⟩ = b →
      (topologicalSortWithTransitiveResolution m).sorted.get ⟨j, hj⟩ = a →
      i < j) := by
  have hgood0 : GoodState m ⟨[], [], [], []⟩ := by
    refine ⟨by simp, List.nodup_nil, ?_⟩
    intro i h
    simp at h
  set s := topoLoop m (m.map Prod.fst) ⟨[], [], [], []⟩ with hsdef
  have hgood : GoodState m s := topoLoop_good m _ _ hgood0
  obtain ⟨hcyc, -, -, hkeys⟩ :=
    topoLoop_acyc m hacyc (m.map Prod.fst) ⟨[], [], [], []⟩
      (fun k hk => List.mem_append_left _ hk) rfl
  obtain ⟨hinv1, hnodup, hJ⟩ := hgood
  have hres : topologicalSortWithTransitiveResolution m = ⟨s.sorted.reverse, s.cycles⟩ := rfl
  rw [hres]
  refine ⟨hcyc, List.nodup_reverse.mpr hnodup, ?_, ?_, ?_⟩
  · intro k hk
    exact List.mem_reverse.mpr ((hinv1 k).mp (hkeys k hk))
  · intro b hb a ha
    obtain ⟨⟨i, hi⟩, hget⟩ := List.get_of_mem (List.mem_reverse.mp hb)
    have := hJ i hi a (by rw [hget]; exact ha)
    exact List.mem_reverse.mpr (List.take_subset _ _ this)
  · intro a b i j hi hj hdep hgb hga
    simp only [List.length_reverse] at hi hj
    have hgb2 : s.sorted.get ⟨s.sorted.length - 1 - i, by omega⟩ = b := by
      rw [← hgb]
      simp [List.get_eq_getElem, List.getElem_reverse]
    have hga2 : s.sorted.get ⟨s.sorted.length - 1 - j, by omega⟩ = a := by
      rw [← hga]
      simp [List.get_eq_getElem, List.getElem_reverse]
    have htake : a ∈ s.sorted.take (s.sorted.length - 1 - i) := by
      have := hJ (s.sorted.length - 1 - i) (by omega) a (by rw [hgb2]; exact hdep)
      exact this
    obtain ⟨⟨t, ht⟩, hgt⟩ := List.get_of_mem htake
    have htlen : t < s.sorted.length - 1 - i := by
      have := ht
      simp only [List.length_take] at this
      omega
    have hgt2 : s.sorted.get ⟨t, by omega⟩ = a := by
      rw [← hgt]
      simp [List.get_eq_getElem, List.getElem_take]
    have heq : (⟨t, by omega⟩ : Fin s.sorted.length) =
        ⟨s.sorted.length - 1 - j, by omega⟩ :=
      (hnodup.get_inj_iff).mp (by rw [hgt2, hga2])
    have : t = s.sorted.length - 1 - j := congrArg Fin.val heq
    omega

/-! ## Resource files and the dependency comparator of `sortResourceFilesByDependencies` -/

theorem jsIndexOf_ge (l : List String) (x : String) : -1 ≤ jsIndexOf l x := by
  induction l with
  | nil => simp [jsIndexOf]
  | cons y ys ih =>
    rw [jsIndexOf]
    by_cases hy : y = x
    · simp [hy]
    · simp only [if_neg hy]
      by_cases hr : jsIndexOf ys x < 0
      · simp [hr]
      · simp only [if_neg hr]
        omega

theorem jsIndexOf_neg_iff (l : List String) (x : String) :
    jsIndexOf l x = -1 ↔ x ∉ l := by
  induction l with
  | nil => simp [jsIndexOf]
  | cons y ys ih =>
    by_cases hy : y = x
    · subst hy
      simp [jsIndexOf]
    · rw [jsIndexOf]
      simp only [if_neg hy]
      have hge := jsIndexOf_ge ys x
      by_cases hr : jsIndexOf ys x < 0
      · have hys : x ∉ ys := by
          rw [← ih]
          omega
        simp only [if_pos hr, List.mem_cons, true_iff]
        intro h
        rcases h with h | h
        · exact hy h.symm
        · exact hys h
      · have hys : x ∈ ys := by
          by_contra hc
          rw [← ih] at hc
          omega
        simp only [if_neg hr]
        constructor
        · intro h
          omega
        · intro h
          exact absurd (List.mem_cons_of_mem y hys) h

theorem jsIndexOf_nonneg_of_mem {l : List String} {x : String} (h : x ∈ l) :
    0 ≤ jsIndexOf l x := by
  have hge := jsIndexOf_ge l x
  by_contra hc
  have h1 : jsIndexOf l x = -1 := by omega
  exact ((jsIndexOf_neg_iff l x).mp h1) h

theorem jsIndexOf_of_get {l : List String} {x : String} (hnd : l.Nodup) :
    ∀ (i : Nat) (h : i < l.length), l.get ⟨i, h⟩ = x → jsIndexOf l x = i := by
  induction l with
  | nil =>
    intro i h
    simp at h
  | cons y ys ih =>
    intro i h hget
    match i with
    | 0 =>
      simp only [List.get] at hget
      rw [jsIndexOf, if_pos hget]
      simp
    | Nat.succ i =>
      have hget2 : ys.get ⟨i, by simpa using h⟩ = x := hget
      have hx : x ∈ ys := hget2 ▸ List.get_mem ys i (by simpa using h)
      have hy : y ≠ x := by
        intro he
        subst he
        exact (List.nodup_cons.mp hnd).1 hx
      have hr := ih (List.nodup_cons.mp hnd).2 i (by simpa using h) hget2
      rw [jsIndexOf]
      simp only [if_neg hy]
      have hnn : ¬ (jsIndexOf ys x < 0) := by
        rw [hr]
        omega
      simp only [if_neg hnn, hr]
      omega

theorem acyclic_of_rank (m : DepMap) (r : String → Nat)
    (h : ∀ x y, DepEdge m x y → r y < r x) : Acyclic m := by
  intro n hn
  have key : ∀ a b, Relation.TransGen (DepEdge m) a b → r b < r a := by
    intro a b htg
    induction htg with
    | single hxy => exact h _ _ hxy
    | tail _ hbc ihab => exact lt_trans (h _ _ hbc) ihab
  exact lt_irrefl _ (key n n hn)

/-- On an acyclic dependency map, the comparator orders a dependency strictly
before its dependant (and symmetrically after when the arguments are
swapped). -/
theorem cmp_neg_of_dep (extract : ResourceFile → List String)
    (files : List ResourceFile) (a b : ResourceFile)
    (hacyc : Acyclic (buildDependencyMap extract files))
    (hdep : a.url ∈ depsOf (buildDependencyMap extract files) b.url) :
    sortResourceFilesByDependencies extract files a b < 0 ∧
      0 < sortResourceFilesByDependencies extract files b a := by
  set m := buildDependencyMap extract files with hm
  obtain ⟨-, hnodup, hkeys, hclosed, hpos⟩ := topo_acyclic_spec m hacyc
  set sorted := (topologicalSortWithTransitiveResolution m).sorted with hsorted
  have hbkey : b.url ∈ m.map Prod.fst := depsOf_ne_nil_key (List.ne_nil_of_mem hdep)
  have hbmem : b.url ∈ sorted := hkeys _ hbkey
  have hamem : a.url ∈ sorted := hclosed _ hbmem _ hdep
  obtain ⟨⟨ib, hib⟩, hgb⟩ := List.get_of_mem hbmem
  obtain ⟨⟨ia, hia⟩, hga⟩ := List.get_of_mem hamem
  have hlt : ib < ia := hpos a.url b.url ib ia hib hia hdep hgb hga
  have hidxb : jsIndexOf sorted b.url = ib := jsIndexOf_of_get hnodup ib hib hgb
  have hidxa : jsIndexOf sorted a.url = ia := jsIndexOf_of_get hnodup ia hia hga
  have hcond : jsIndexOf sorted a.url > -1 ∧ jsIndexOf sorted b.url > -1 := by
    rw [hidxa, hidxb]
    omega
  constructor
  · show (if jsIndexOf sorted a.url > -1 ∧ jsIndexOf sorted b.url > -1 then
        jsIndexOf sorted b.url - jsIndexOf sorted a.url
      else if jsIndexOf sorted a.url > -1 then 1
      else if jsIndexOf sorted b.url > -1 then -1
      else localeCompare a.url b.url) < 0
    rw [if_pos hcond, hidxa, hidxb]
    omega
  · show 0 < (if jsIndexOf sorted b.url > -1 ∧ jsIndexOf sorted a.url > -1 then
        jsIndexOf sorted a.url - jsIndexOf sorted b.url
      else if jsIndexOf sorted b.url > -1 then 1
      else if jsIndexOf sorted a.url > -1 then -1
      else localeCompare b.url a.url)
    rw [if_pos ⟨hcond.2, hcond.1⟩, hidxa, hidxb]
    omega

theorem buildW_eq : buildDependencyMap extractW [fileA, fileB] = [("a", []), ("b", ["a"])] := by
  decide

theorem acyclicW : Acyclic (buildDependencyMap extractW [fileA, fileB]) := by
  apply acyclic_of_rank _ (fun s => if s = "b" then 1 else 0)
  intro x y h
  unfold DepEdge at h
  rw [buildW_eq] at h
  by_cases hxa : "a" = x
  · rw [show depsOf [("a", []), ("b", ["a"])] x = [] from by
      simp [depsOf, lookupMap, if_pos hxa]] at h
    cases h
  · by_cases hxb : "b" = x
    · rw [show depsOf [("a", []), ("b", ["a"])] x = ["a"] from by
        simp [depsOf, lookupMap, if_neg hxa, if_pos hxb]] at h
      have hy : y = "a" := by simpa using h
      subst hy
      subst hxb
      decide
    · rw [show depsOf [("a", []), ("b", ["a"])] x = [] from by
        simp [depsOf, lookupMap, if_neg hxa, if_neg hxb]] at h
      cases h

/-- C1: for every set of resource files whose dependency graph is acyclic
(so in particular no URL lies on a cycle), if `a` is a dependency of `b` then
`a` is placed before `b` in the compile order produced by sorting the files
with the comparator from `sortResourceFilesByDependencies`: in any list that
is pairwise-consistent with the comparator, every occurrence of `a` precedes
every occurrence of `b`. -/
theorem claim_C1_topological_correctness
    (extract : ResourceFile → List String) (files : List ResourceFile)
    (a b : ResourceFile) (l : List ResourceFile)
    (hacyc : Acyclic (buildDependencyMap extract files))
    (hdep : a.url ∈ depsOf (buildDependencyMap extract files) b.url)
    (hsorted : l.Pairwise (fun x y => sortResourceFilesByDependencies extract files x y ≤ 0))
    (i j : Nat) (hi : i < l.length) (hj : j < l.length)
    (ha : l.get ⟨i, hi⟩ = a) (hb : l.get ⟨j, hj⟩ = b) :
    i < j := by
  obtain ⟨hab, hba⟩ := cmp_neg_of_dep extract files a b hacyc hdep
  by_contra hc
  push_neg at hc
  rcases Nat.lt_or_eq_of_le hc with hlt | heq
  · have hpw := (List.pairwise_iff_get.mp hsorted) ⟨j, hj⟩ ⟨i, hi⟩ hlt
    rw [ha, hb] at hpw
    omega
  · have hone : (⟨i, hi⟩ : Fin l.length) = ⟨j, hj⟩ := by
      apply Fin.ext
      exact heq.symm
    have hgab : a = b := by rw [← ha, ← hb, hone]
    rw [hgab] at hab hba
    omega

/-- Witness for C1 at the concrete two-file instance: `fileA` (url `a`) is a
dependency of `fileB` (url `b`), the list `[fileA, fileB]` is sorted by the
comparator, and indeed `fileA`'s position `0` precedes `fileB`'s position `1`. -/
theorem claim_C1_witness :
    Acyclic (buildDependencyMap extractW [fileA, fileB]) ∧
    fileA.url ∈ depsOf (buildDependencyMap extractW [fileA, fileB]) fileB.url ∧
    ([fileA, fileB] : List ResourceFile).Pairwise
      (fun x y => sortResourceFilesByDependencies extractW [fileA, fileB] x y ≤ 0) ∧
    (0 : Nat) < 1 :=
  ⟨acyclicW, by decide, by decide,
    claim_C1_topological_correctness extractW [fileA, fileB] fileA fileB [fileA, fileB]
      acyclicW (by decide) (by decide) 0 1 (by decide) (by decide) (by decide) (by decide)⟩

theorem jsIndexOf_pos_iff (l : List String) (x : String) :
    jsIndexOf l x > -1 ↔ x ∈ l := by
  have hge := jsIndexOf_ge l x
  constructor
  · intro h
    by_contra hc
    rw [← jsIndexOf_neg_iff] at hc
    omega
  · intro h
    have := jsIndexOf_nonneg_of_mem h
    omega

theorem localeCompare_nonpos (a b : String) : localeCompare a b ≤ 0 ↔ ¬ b < a := by
  unfold localeCompare
  by_cases hab : a < b
  · rw [if_pos hab]
    have hnba : ¬ b < a := fun h => lt_irrefl a (lt_trans hab h)
    constructor
    · intro _
      exact hnba
    · intro _
      omega
  · by_cases hba : b < a
    · rw [if_neg hab, if_pos hba]
      constructor
      · intro h
        omega
      · intro h
        exact absurd hba h
    · rw [if_neg hab, if_neg hba]
      constructor
      · intro _
        exact hba
      · intro _
        omega

/-- The comparator, with the `let` bindings of the source inlined. -/
theorem cmp_unfold (extract : ResourceFile → List String) (files : List ResourceFile)
    (a b : ResourceFile) :
    sortResourceFilesByDependencies extract files a b =
      (if jsIndexOf (topologicalSortWithTransitiveResolution
            (buildDependencyMap extract files)).sorted a.url > -1 ∧
          jsIndexOf (topologicalSortWithTransitiveResolution
            (buildDependencyMap extract files)).sorted b.url > -1 then
        jsIndexOf (topologicalSortWithTransitiveResolution
          (buildDependencyMap extract files)).sorted b.url -
          jsIndexOf (topologicalSortWithTransitiveResolution
            (buildDependencyMap extract files)).sorted a.url
      else if jsIndexOf (topologicalSortWithTransitiveResolution
          (buildDependencyMap extract files)).sorted a.url > -1 then 1
      else if jsIndexOf (topologicalSortWithTransitiveResolution
          (buildDependencyMap extract files)).sorted b.url > -1 then -1
      else localeCompare a.url b.url) := rfl

/-- C2 counterexample: with the single file `fileA` registered, `fileA.url`
is in the `sorted` list and `fileB.url` is not, yet the comparator returns
`1`, i.e. it orders `fileA` *after* `fileB` — the claim that the file whose
URL appears in `sorted` is ordered first is false. -/
theorem claim_C2_counterexample :
    fileA.url ∈ (topologicalSortWithTransitiveResolution
      (buildDependencyMap (fun _ => []) [fileA])).sorted ∧
    fileB.url ∉ (topologicalSortWithTransitiveResolution
      (buildDependencyMap (fun _ => []) [fileA])).sorted ∧
    sortResourceFilesByDependencies (fun _ => []) [fileA] fileA fileB = 1 ∧
    ¬ sortResourceFilesByDependencies (fun _ => []) [fileA] fileA fileB < 0 := by
  decide

/-- C2 (amended): the comparator of `sortResourceFilesByDependencies` behaves
as follows.  When both URLs appear in `sorted`, it returns the difference of
their indices with the *higher* index ordered earlier (on an acyclic input the
dependency carries the higher index because `sorted` is the reversed
post-order); when exactly one URL appears in `sorted`, the file whose URL is
*not* in `sorted` is ordered first; when neither appears, the files compare
lexicographically by URL; and the induced relation is a total preorder (total
and transitive), not a total order. -/
theorem claim_C2_comparator_amended (extract : ResourceFile → List String)
    (files : List ResourceFile) :
    (∀ a b : ResourceFile,
      a.url ∈ (topologicalSortWithTransitiveResolution
        (buildDependencyMap extract files)).sorted →
      b.url ∈ (topologicalSortWithTransitiveResolution
        (buildDependencyMap extract files)).sorted →
      sortResourceFilesByDependencies extract files a b =
        jsIndexOf (topologicalSortWithTransitiveResolution
          (buildDependencyMap extract files)).sorted b.url -
        jsIndexOf (topologicalSortWithTransitiveResolution
          (buildDependencyMap extract files)).sorted a.url) ∧
    (∀ a b : ResourceFile,
      a.url ∈ (topologicalSortWithTransitiveResolution
        (buildDependencyMap extract files)).sorted →
      b.url ∉ (topologicalSortWithTransitiveResolution
        (buildDependencyMap extract files)).sorted →
      sortResourceFilesByDependencies extract files a b = 1) ∧
    (∀ a b : ResourceFile,
      a.url ∉ (topologicalSortWithTransitiveResolution
        (buildDependencyMap extract files)).sorted →
      b.url ∈ (topologicalSortWithTransitiveResolution
        (buildDependencyMap extract files)).sorted →
      sortResourceFilesByDependencies extract files a b = -1) ∧
    (∀ a b : ResourceFile,
      a.url ∉ (topologicalSortWithTransitiveResolution
        (buildDependencyMap extract files)).sorted →
      b.url ∉ (topologicalSortWithTransitiveResolution
        (buildDependencyMap extract files)).sorted →
      sortResourceFilesByDependencies extract files a b = localeCompare a.url b.url) ∧
    (∀ a b : ResourceFile, sortResourceFilesByDependencies extract files a b ≤ 0 ∨
      sortResourceFilesByDependencies extract files b a ≤ 0) ∧
    (∀ a b c : ResourceFile, sortResourceFilesByDependencies extract files a b ≤ 0 →
      sortResourceFilesByDependencies extract files b c ≤ 0 →
      sortResourceFilesByDependencies extract files a c ≤ 0) := by
  set sorted := (topologicalSortWithTransitiveResolution
    (buildDependencyMap extract files)).sorted with hsorted
  have hboth : ∀ a b : ResourceFile, a.url ∈ sorted → b.url ∈ sorted →
      sortResourceFilesByDependencies extract files a b =
        jsIndexOf sorted b.url - jsIndexOf sorted a.url := by
    intro a b ha hb
    rw [cmp_unfold]
    rw [if_pos ⟨(jsIndexOf_pos_iff _ _).mpr ha, (jsIndexOf_pos_iff _ _).mpr hb⟩]
  have honeA : ∀ a b : ResourceFile, a.url ∈ sorted → b.url ∉ sorted →
      sortResourceFilesByDependencies extract files a b = 1 := by
    intro a b ha hb
    rw [cmp_unfold]
    have hbn : ¬ jsIndexOf sorted b.url > -1 := fun h => hb ((jsIndexOf_pos_iff _ _).mp h)
    rw [if_neg (fun h => hbn h.2), if_pos ((jsIndexOf_pos_iff _ _).mpr ha)]
  have honeB : ∀ a b : ResourceFile, a.url ∉ sorted → b.url ∈ sorted →
      sortResourceFilesByDependencies extract files a b = -1 := by
    intro a b ha hb
    rw [cmp_unfold]
    have han : ¬ jsIndexOf sorted a.url > -1 := fun h => ha ((jsIndexOf_pos_iff _ _).mp h)
    rw [if_neg (fun h => han h.1), if_neg han, if_pos ((jsIndexOf_pos_iff _ _).mpr hb)]
  have hnone : ∀ a b : ResourceFile, a.url ∉ sorted → b.url ∉ sorted →
      sortResourceFilesByDependencies extract files a b = localeCompare a.url b.url := by
    intro a b ha hb
    rw [cmp_unfold]
    have han : ¬ jsIndexOf sorted a.url > -1 := fun h => ha ((jsIndexOf_pos_iff _ _).mp h)
    have hbn : ¬ jsIndexOf sorted b.url > -1 := fun h => hb ((jsIndexOf_pos_iff _ _).mp h)
    rw [if_neg (fun h => han h.1), if_neg han, if_neg hbn]
  refine ⟨hboth, honeA, honeB, hnone, ?_, ?_⟩
  · intro a b
    by_cases ha : a.url ∈ sorted
    · by_cases hb : b.url ∈ sorted
      · rw [hboth a b ha hb, hboth b a hb ha]
        omega
      · rw [honeB b a hb ha]
        omega
    · by_cases hb : b.url ∈ sorted
      · rw [honeB a b ha hb]
        omega
      · rw [hnone a b ha hb, hnone b a hb ha]
        rw [localeCompare_nonpos, localeCompare_nonpos]
        rcases lt_trichotomy a.url b.url with h | h | h
        · exact Or.inl (fun hc => lt_irrefl _ (lt_trans h hc))
        · exact Or.inl (fun hc => lt_irrefl _ (h ▸ hc))
        · exact Or.inr (fun hc => lt_irrefl _ (lt_trans h hc))
  · intro a b c hab hbc
    by_cases ha : a.url ∈ sorted
    · have hb : b.url ∈ sorted := by
        by_contra hbn
        rw [honeA a b ha hbn] at hab
        omega
      have hc : c.url ∈ sorted := by
        by_contra hcn
        rw [honeA b c hb hcn] at hbc
        omega
      rw [hboth a b ha hb] at hab
      rw [hboth b c hb hc] at hbc
      rw [hboth a c ha hc]
      omega
    · by_cases hc : c.url ∈ sorted
      · rw [honeB a c ha hc]
        omega
      · by_cases hb : b.url ∈ sorted
        · rw [honeA b c hb hc] at hbc
          omega
        · rw [hnone a b ha hb, localeCompare_nonpos] at hab
          rw [hnone b c hb hc, localeCompare_nonpos] at hbc
          rw [hnone a c ha hc, localeCompare_nonpos]
          intro hca
          have h1 : a.url ≤ b.url := not_lt.mp hab
          have h2 : b.url ≤ c.url := not_lt.mp hbc
          exact absurd (lt_of_lt_of_le hca (le_trans h1 h2)) (lt_irrefl _)

/-- Witness for the amended C2 at the concrete one-file instance: applying the
one-URL-in-`sorted` clause to `fileA` (in `sorted`) and `fileB` (not in
`sorted`) yields comparator value `1`. -/
theorem claim_C2_witness :
    fileA.url ∈ (topologicalSortWithTransitiveResolution
      (buildDependencyMap (fun _ => []) [fileA])).sorted ∧
    fileB.url ∉ (topologicalSortWithTransitiveResolution
      (buildDependencyMap (fun _ => []) [fileA])).sorted ∧
    sortResourceFilesByDependencies (fun _ => []) [fileA] fileA fileB = 1 :=
  ⟨by decide, by decide,
    (claim_C2_comparator_amended (fun _ => []) [fileA]).2.1 fileA fileB
      (by decide) (by decide)⟩

/-- C3 counterexample: on the one-node self-loop map the back edge is
detected, the whole current DFS path is recorded as a cycle, but the DFS run
stops and the node on the aborted path is never emitted, so the returned
`sorted` list does not cover the graph (`"a"` is a key yet `sorted = []`). -/
theorem claim_C3_counterexample :
    (topologicalSortWithTransitiveResolution [("a", ["a"])]).cycles = [["a"]] ∧
    (topologicalSortWithTransitiveResolution [("a", ["a"])]).sorted = [] ∧
    "a" ∈ ([("a", ["a"])] : DepMap).map Prod.fst := by
  decide

/-- C3 (amended): a back edge encountered by the traversal records the
current DFS path as a cycle, but the enclosing DFS run stops at the first
back edge and nodes on the aborted path may be missing from the result, so
the output need not cover the whole graph.  On an acyclic map no back edge is
ever encountered: no cycle is reported and `sorted` covers every key; on the
self-loop map the back edge produces the reported cycle `["a"]` and the
function still returns, with an empty `sorted`. -/
theorem claim_C3_cycle_reporting_amended (m : DepMap) (hacyc : Acyclic m) :
    (topologicalSortWithTransitiveResolution m).cycles = [] ∧
    (∀ k ∈ m.map Prod.fst, k ∈ (topologicalSortWithTransitiveResolution m).sorted) ∧
    (topologicalSortWithTransitiveResolution [("a", ["a"])]).cycles = [["a"]] ∧
    (topologicalSortWithTransitiveResolution [("a", ["a"])]).sorted = [] := by
  obtain ⟨h1, -, h3, -, -⟩ := topo_acyclic_spec m hacyc
  exact ⟨h1, h3, by decide, by decide⟩

/-- Witness for the amended C3 at the concrete acyclic two-file map: no
cycles are reported there. -/
theorem claim_C3_witness :
    Acyclic (buildDependencyMap extractW [fileA, fileB]) ∧
    (topologicalSortWithTransitiveResolution
      (buildDependencyMap extractW [fileA, fileB])).cycles = [] :=
  ⟨acyclicW, (claim_C3_cycle_reporting_amended _ acyclicW).1⟩

/-! ## Concept hierarchies (`src/schemas/codesystems/hierarchy.ts`)

`ConceptHierarchyConcept` is the concept-tree node (`code`, `properties`,
`descendants`); a `ConceptHierarchy` is a forest of them.  The traversal
functions mirror `findConcept`, `hierarchicalDescendantsOf` and
`hierarchicalAncestorsOf`, with each inner `for` loop written as an explicit
list recursion. -/

theorem chc_ind (P : ConceptHierarchyConcept → Prop)
    (h : ∀ code props ds, (∀ d ∈ ds, P d) → P (ConceptHierarchyConcept.mk code props ds)) :
    ∀ c, P c := by
  have key : ∀ n c, sizeOf c ≤ n → P c := by
    intro n
    induction n using Nat.strong_induction_on with
    | _ n ih =>
      intro c hc
      cases c with
      | mk code props ds =>
        refine h code props ds ?_
        intro d hd
        have h1 : sizeOf d < sizeOf ds := List.sizeOf_lt_of_mem hd
        have h2 : sizeOf ds <
            sizeOf (ConceptHierarchyConcept.mk code props ds) := by
          rw [ConceptHierarchyConcept.mk.sizeOf_spec]
          omega
        exact ih (sizeOf d) (by omega) d (le_refl _)
  exact fun c => key (sizeOf c) c (le_refl _)

theorem collectCodesUnder_eq (c : ConceptHierarchyConcept) :
    collectCodesUnder c = c.code :: collectCodesUnderList c.descendants := by
  cases c
  rfl

theorem collectCodesUnderList_append (l1 l2 : List ConceptHierarchyConcept) :
    collectCodesUnderList (l1 ++ l2) =
      collectCodesUnderList l1 ++ collectCodesUnderList l2 := by
  induction l1 with
  | nil => simp [collectCodesUnderList]
  | cons d rest ih => simp [collectCodesUnderList, ih]

theorem findCodeIn_isSome_iff (code : String) :
    ∀ c, ((findCodeIn code c).isSome = true ↔ code ∈ collectCodesUnder c) := by
  refine chc_ind _ ?_
  intro cc pp ds Hds
  rw [collectCodesUnder_eq]
  show ((if cc = code then some (ConceptHierarchyConcept.mk cc pp ds)
      else findCodeInChildren code ds).isSome = true ↔
    code ∈ (ConceptHierarchyConcept.mk cc pp ds).code ::
      collectCodesUnderList (ConceptHierarchyConcept.mk cc pp ds).descendants)
  by_cases hc : cc = code
  · subst hc
    simp [ConceptHierarchyConcept.code]
  · rw [if_neg hc]
    have hlist : ∀ l, (∀ d ∈ l, ((findCodeIn code d).isSome = true ↔
        code ∈ collectCodesUnder d)) →
        ((findCodeInChildren code l).isSome = true ↔
          code ∈ collectCodesUnderList l) := by
      intro l
      induction l with
      | nil =>
        intro _
        simp [findCodeInChildren, collectCodesUnderList]
      | cons child rest ih =>
        intro hl
        have hchild := hl child (List.mem_cons_self child rest)
        rw [collectCodesUnderList]
        by_cases hch : child.code = code
        · rw [findCodeInChildren, if_pos hch]
          simp only [Option.isSome_some, true_iff]
          refine List.mem_append_left _ ?_
          rw [collectCodesUnder_eq, hch]
          exact List.mem_cons_self _ _
        · rw [findCodeInChildren, if_neg hch]
          cases hfc : findCodeIn code child with
          | some r =>
            simp only [Option.isSome_some, true_iff]
            refine List.mem_append_left _ ?_
            rw [← hchild, hfc]
            rfl
          | none =>
            have hnc : code ∉ collectCodesUnder child := by
              rw [← hchild, hfc]
              simp
            rw [List.mem_append]
            simp only [hnc, false_or]
            exact ih (fun d hd => hl d (List.mem_cons_of_mem child hd))
    have hmem : code ∈ (ConceptHierarchyConcept.mk cc pp ds).code ::
        collectCodesUnderList (ConceptHierarchyConcept.mk cc pp ds).descendants ↔
        code ∈ collectCodesUnderList ds := by
      show code ∈ cc :: collectCodesUnderList ds ↔ _
      simp only [List.mem_cons]
      constructor
      · intro h
        rcases h with h | h
        · exact absurd h.symm hc
        · exact h
      · exact Or.inr
    rw [hmem]
    exact hlist ds Hds

theorem findCodeAmong_isSome_iff (code : String) :
    ∀ l, ((findCodeAmong code l).isSome = true ↔ code ∈ collectCodesUnderList l) := by
  intro l
  induction l with
  | nil => simp [findCodeAmong, collectCodesUnderList]
  | cons c rest ih =>
    rw [collectCodesUnderList]
    cases hfc : findCodeIn code c with
    | some r =>
      rw [findCodeAmong, hfc]
      simp only [Option.isSome_some, true_iff]
      refine List.mem_append_left _ ?_
      rw [← findCodeIn_isSome_iff code c, hfc]
      rfl
    | none =>
      rw [findCodeAmong, hfc]
      have hnc : code ∉ collectCodesUnder c := by
        rw [← findCodeIn_isSome_iff code c, hfc]
        simp
      rw [List.mem_append]
      simp only [hnc, false_or]
      exact ih

theorem findCodeIn_code (code : String) :
    ∀ c r, findCodeIn code c = some r → r.code = code := by
  refine chc_ind _ ?_
  intro cc pp ds Hds r hr
  show ConceptHierarchyConcept.code r = code
  rw [show findCodeIn code (ConceptHierarchyConcept.mk cc pp ds) =
      (if cc = code then some (ConceptHierarchyConcept.mk cc pp ds)
        else findCodeInChildren code ds) from rfl] at hr
  by_cases hc : cc = code
  · rw [if_pos hc] at hr
    obtain rfl := Option.some.inj hr
    exact hc
  · rw [if_neg hc] at hr
    have hlist : ∀ l, (∀ d ∈ l, ∀ r, findCodeIn code d = some r → r.code = code) →
        findCodeInChildren code l = some r → r.code = code := by
      intro l
      induction l with
      | nil =>
        intro _ hx
        simp [findCodeInChildren] at hx
      | cons child rest ih =>
        intro hl hx
        by_cases hch : child.code = code
        · rw [findCodeInChildren, if_pos hch] at hx
          obtain rfl := Option.some.inj hx
          exact hch
        · rw [findCodeInChildren, if_neg hch] at hx
          cases hfc : findCodeIn code child with
          | some r2 =>
            rw [hfc] at hx
            obtain rfl := Option.some.inj hx
            exact hl child (List.mem_cons_self child rest) r2 hfc
          | none =>
            rw [hfc] at hx
            exact ih (fun d hd => hl d (List.mem_cons_of_mem child hd)) hx
    exact hlist ds Hds hr

theorem findCodeAmong_code (code : String) :
    ∀ l r, findCodeAmong code l = some r → r.code = code := by
  intro l
  induction l with
  | nil =>
    intro r hr
    simp [findCodeAmong] at hr
  | cons c rest ih =>
    intro r hr
    cases hfc : findCodeIn code c with
    | some r2 =>
      rw [findCodeAmong, hfc] at hr
      obtain rfl := Option.some.inj hr
      exact findCodeIn_code code c r2 hfc
    | none =>
      rw [findCodeAmong, hfc] at hr
      exact ih r hr

theorem findCodeIn_nodup (code : String) :
    ∀ c r, (collectCodesUnder c).Nodup → findCodeIn code c = some r →
      (collectCodesUnder r).Nodup := by
  refine chc_ind _ ?_
  intro cc pp ds Hds r hnd hr
  rw [show findCodeIn code (ConceptHierarchyConcept.mk cc pp ds) =
      (if cc = code then some (ConceptHierarchyConcept.mk cc pp ds)
        else findCodeInChildren code ds) from rfl] at hr
  by_cases hc : cc = code
  · rw [if_pos hc] at hr
    obtain rfl := Option.some.inj hr
    exact hnd
  · rw [if_neg hc] at hr
    have hndl : (collectCodesUnderList ds).Nodup := by
      rw [collectCodesUnder_eq] at hnd
      exact (List.nodup_cons.mp hnd).2
    have hlist : ∀ l,
        (∀ d ∈ l, ∀ r, (collectCodesUnder d).Nodup → findCodeIn code d = some r →
          (collectCodesUnder r).Nodup) →
        (collectCodesUnderList l).Nodup →
        findCodeInChildren code l = some r → (collectCodesUnder r).Nodup := by
      intro l
      induction l with
      | nil =>
        intro _ _ hx
        simp [findCodeInChildren] at hx
      | cons child rest ih =>
        intro hl hndx hx
        rw [collectCodesUnderList, List.nodup_append] at hndx
        obtain ⟨hnd1, hnd2, -⟩ := hndx
        by_cases hch : child.code = code
        · rw [findCodeInChildren, if_pos hch] at hx
          obtain rfl := Option.some.inj hx
          exact hnd1
        · rw [findCodeInChildren, if_neg hch] at hx
          cases hfc : findCodeIn code child with
          | some r2 =>
            rw [hfc] at hx
            obtain rfl := Option.some.inj hx
            exact hl child (List.mem_cons_self child rest) r2 hnd1 hfc
          | none =>
            rw [hfc] at hx
            exact ih (fun d hd => hl d (List.mem_cons_of_mem child hd)) hnd2 hx
    exact hlist ds (fun d hd => Hds d hd) hndl hr

theorem findCodeAmong_nodup (code : String) :
    ∀ l r, (collectCodesUnderList l).Nodup → findCodeAmong code l = some r →
      (collectCodesUnder r).Nodup := by
  intro l
  induction l with
  | nil =>
    intro r _ hr
    simp [findCodeAmong] at hr
  | cons c rest ih =>
    intro r hnd hr
    rw [collectCodesUnderList, List.nodup_append] at hnd
    obtain ⟨hnd1, hnd2, -⟩ := hnd
    cases hfc : findCodeIn code c with
    | some r2 =>
      rw [findCodeAmong, hfc] at hr
      obtain rfl := Option.some.inj hr
      exact findCodeIn_nodup code c r2 hnd1 hfc
    | none =>
      rw [findCodeAmong, hfc] at hr
      exact ih r hnd2 hr

theorem mem_collectList_of_mem {x : String} :
    ∀ (l : List ConceptHierarchyConcept) (c : ConceptHierarchyConcept),
      c ∈ l → x ∈ collectCodesUnder c → x ∈ collectCodesUnderList l := by
  intro l
  induction l with
  | nil =>
    intro c hc
    cases hc
  | cons d rest ih =>
    intro c hc hx
    rw [collectCodesUnderList, List.mem_append]
    rcases List.mem_cons.mp hc with rfl | hc
    · exact Or.inl hx
    · exact Or.inr (ih c hc hx)

theorem map_code_mem_collectList {x : String} :
    ∀ (l : List ConceptHierarchyConcept),
      x ∈ l.map ConceptHierarchyConcept.code → x ∈ collectCodesUnderList l := by
  intro l hx
  obtain ⟨c, hc, hcx⟩ := List.mem_map.mp hx
  refine mem_collectList_of_mem l c hc ?_
  rw [collectCodesUnder_eq, hcx]
  exact List.mem_cons_self _ _

theorem ancPath_mem {code : String} :
    ∀ {c : ConceptHierarchyConcept} {l : List String}, AncPath code c l →
      code ∈ collectCodesUnderList c.descendants := by
  intro c l h
  induction h with
  | parent c hmem => exact map_code_mem_collectList _ hmem
  | step c child l hchild _ ih =>
    refine mem_collectList_of_mem _ child hchild ?_
    rw [collectCodesUnder_eq]
    exact List.mem_cons_of_mem _ ih

theorem collectPathBetween_sound (code : String) :
    ∀ c p, collectPathBetween code c = p → p ≠ [] → AncPath code c p := by
  refine chc_ind _ ?_
  intro cc pp ds Hds p hp hne
  rw [show collectPathBetween code (ConceptHierarchyConcept.mk cc pp ds) =
      collectPathChildren code cc ds from rfl] at hp
  have hlist : ∀ l, (∀ d ∈ l, ∀ p, collectPathBetween code d = p → p ≠ [] →
        AncPath code d p) →
      (∀ d ∈ l, d ∈ ds) →
      ∀ p, collectPathChildren code cc l = p → p ≠ [] →
        AncPath code (ConceptHierarchyConcept.mk cc pp ds) p := by
    intro l
    induction l with
    | nil =>
      intro _ _ p hp hne
      rw [collectPathChildren] at hp
      exact absurd hp.symm hne
    | cons child rest ih =>
      intro hl hsub p hp hne
      by_cases hch : child.code = code
      · rw [collectPathChildren, if_pos hch] at hp
        subst hp
        refine AncPath.parent _ ?_
        show code ∈ (ds.map ConceptHierarchyConcept.code)
        exact List.mem_map.mpr ⟨child, hsub child (List.mem_cons_self child rest), hch⟩
      · rw [collectPathChildren, if_neg hch] at hp
        cases hq : collectPathBetween code child with
        | nil =>
          rw [hq] at hp
          exact ih (fun d hd => hl d (List.mem_cons_of_mem child hd))
            (fun d hd => hsub d (List.mem_cons_of_mem child hd)) p hp hne
        | cons a q =>
          rw [hq] at hp
          subst hp
          refine AncPath.step _ child _ (hsub child (List.mem_cons_self child rest)) ?_
          exact hl child (List.mem_cons_self child rest) (a :: q) hq (by simp)
  exact hlist ds Hds (fun d hd => hd) p hp hne

theorem collectPathBetween_complete (code : String) :
    ∀ c, code ∈ collectCodesUnderList c.descendants →
      collectPathBetween code c ≠ [] := by
  refine chc_ind _ ?_
  intro cc pp ds Hds hmem
  rw [show collectPathBetween code (ConceptHierarchyConcept.mk cc pp ds) =
      collectPathChildren code cc ds from rfl]
  have hmem2 : code ∈ collectCodesUnderList ds := hmem
  have hlist : ∀ l, (∀ d ∈ l, code ∈ collectCodesUnderList d.descendants →
        collectPathBetween code d ≠ []) →
      code ∈ collectCodesUnderList l → collectPathChildren code cc l ≠ [] := by
    intro l
    induction l with
    | nil =>
      intro _ hx
      simp [collectCodesUnderList] at hx
    | cons child rest ih =>
      intro hl hx
      by_cases hch : child.code = code
      · rw [collectPathChildren, if_pos hch]
        simp
      · rw [collectPathChildren, if_neg hch]
        cases hq : collectPathBetween code child with
        | nil =>
          rw [collectCodesUnderList, List.mem_append] at hx
          rcases hx with hx | hx
          · exfalso
            rw [collectCodesUnder_eq] at hx
            rcases List.mem_cons.mp hx with hx | hx
            · exact hch hx.symm
            · exact hl child (List.mem_cons_self child rest) hx hq
          · exact ih (fun d hd => hl d (List.mem_cons_of_mem child hd)) hx
        | cons a q =>
          simp
  exact hlist ds (fun d hd => Hds d hd) hmem2

theorem ancestorsLoop_spec (code : String) :
    ∀ (roots : List ConceptHierarchyConcept),
      (∀ root ∈ roots, root.code ≠ code) →
      (∃ root ∈ roots, code ∈ collectCodesUnderList root.descendants) →
      ∃ root ∈ roots, AncPath code root (ancestorsLoop code roots) ∧
        ancestorsLoop code roots ≠ [] := by
  intro roots
  induction roots with
  | nil =>
    intro _ hex
    obtain ⟨root, hr, -⟩ := hex
    cases hr
  | cons root rest ih =>
    intro hnr hex
    have hroot : root.code ≠ code := hnr root (List.mem_cons_self root rest)
    rw [ancestorsLoop, if_neg hroot]
    cases hq : collectPathBetween code root with
    | nil =>
      have hex2 : ∃ r ∈ rest, code ∈ collectCodesUnderList r.descendants := by
        obtain ⟨r, hr, hrc⟩ := hex
        rcases List.mem_cons.mp hr with rfl | hr
        · exact absurd hq (collectPathBetween_complete code r hrc)
        · exact ⟨r, hr, hrc⟩
      obtain ⟨r, hr, hpath, hne⟩ :=
        ih (fun x hx => hnr x (List.mem_cons_of_mem root hx)) hex2
      exact ⟨r, List.mem_cons_of_mem root hr, hpath, hne⟩
    | cons a q =>
      refine ⟨root, List.mem_cons_self root rest, ?_, by simp⟩
      exact collectPathBetween_sound code root (a :: q) hq (by simp)

theorem ancestorsLoop_root (code : String) :
    ∀ (roots : List ConceptHierarchyConcept),
      (collectCodesUnderList roots).Nodup →
      code ∈ roots.map ConceptHierarchyConcept.code →
      ancestorsLoop code roots = [] := by
  intro roots
  induction roots with
  | nil =>
    intro _ hx
    cases hx
  | cons root rest ih =>
    intro hnd hx
    rw [collectCodesUnderList, List.nodup_append] at hnd
    obtain ⟨hnd1, hnd2, hdisj⟩ := hnd
    by_cases hroot : root.code = code
    · rw [ancestorsLoop, if_pos hroot]
    · rw [ancestorsLoop, if_neg hroot]
      have hx2 : code ∈ rest.map ConceptHierarchyConcept.code := by
        rcases List.mem_map.mp hx with ⟨c, hc, hcx⟩
        rcases List.mem_cons.mp hc with rfl | hc
        · exact absurd hcx hroot
        · exact List.mem_map.mpr ⟨c, hc, hcx⟩
      have hq : collectPathBetween code root = [] := by
        by_contra hne
        have hAnc := collectPathBetween_sound code root _ rfl hne
        have hmem1 : code ∈ collectCodesUnder root := by
          rw [collectCodesUnder_eq]
          exact List.mem_cons_of_mem _ (ancPath_mem hAnc)
        have hmem2 : code ∈ collectCodesUnderList rest :=
          map_code_mem_collectList rest hx2
        exact hdisj hmem1 hmem2
      rw [hq]
      exact ih hnd2 hx2

theorem mem_collectList_split {x : String} :
    ∀ (l : List ConceptHierarchyConcept), x ∈ collectCodesUnderList l →
      ∃ c ∈ l, x ∈ collectCodesUnder c := by
  intro l
  induction l with
  | nil =>
    intro hx
    simp [collectCodesUnderList] at hx
  | cons c rest ih =>
    intro hx
    rw [collectCodesUnderList, List.mem_append] at hx
    rcases hx with hx | hx
    · exact ⟨c, List.mem_cons_self c rest, hx⟩
    · obtain ⟨d, hd, hdx⟩ := ih hx
      exact ⟨d, List.mem_cons_of_mem c hd, hdx⟩

/-- C6: for every concept hierarchy that is a forest with no duplicate codes:
`find` returns `some` iff the code exists anywhere in the forest;
`descendants` is exactly the set of codes of the full subtree rooted at the
named concept with the code itself excluded (and is its preorder listing);
and `ancestors` is empty when the code is not found or is a root, and
otherwise is the root-first list of codes along a real branch from a
top-level root down to the parent of the named concept. -/
theorem claim_C6_hierarchy_queries (h : ConceptHierarchy) (code : String)
    (hnd : (collectCodesUnderList h.concepts).Nodup) :
    ((findConcept h code).isSome = true ↔ code ∈ collectCodesUnderList h.concepts) ∧
    (∀ c, findConcept h code = some c →
      c.code = code ∧
      hierarchicalDescendantsOf h code = collectCodesUnderList c.descendants ∧
      (∀ x, x ∈ hierarchicalDescendantsOf h code ↔
        (x ∈ collectCodesUnder c ∧ x ≠ code))) ∧
    (findConcept h code = none → hierarchicalAncestorsOf h code = []) ∧
    (code ∈ h.concepts.map ConceptHierarchyConcept.code →
      hierarchicalAncestorsOf h code = []) ∧
    ((findConcept h code).isSome = true →
      code ∉ h.concepts.map ConceptHierarchyConcept.code →
      ∃ root ∈ h.concepts, AncPath code root (hierarchicalAncestorsOf h code) ∧
        hierarchicalAncestorsOf h code ≠ []) := by
  refine ⟨findCodeAmong_isSome_iff code h.concepts, ?_, ?_, ?_, ?_⟩
  · intro c hfound
    have hcode : c.code = code := findCodeAmong_code code h.concepts c hfound
    have hdesc : hierarchicalDescendantsOf h code = collectCodesUnderList c.descendants := by
      unfold hierarchicalDescendantsOf
      rw [show findConcept h code = some c from hfound]
    refine ⟨hcode, hdesc, ?_⟩
    intro x
    rw [hdesc]
    have hndc : (collectCodesUnder c).Nodup :=
      findCodeAmong_nodup code h.concepts c hnd hfound
    rw [collectCodesUnder_eq, hcode] at hndc ⊢
    obtain ⟨hhead, htail⟩ := List.nodup_cons.mp hndc
    constructor
    · intro hx
      refine ⟨List.mem_cons_of_mem _ hx, ?_⟩
      intro he
      subst he
      exact hhead hx
    · intro ⟨hx, hne⟩
      rcases List.mem_cons.mp hx with hx | hx
      · exact absurd hx hne
      · exact hx
  · intro hnone
    unfold hierarchicalAncestorsOf
    rw [hnone]
  · intro hroot
    unfold hierarchicalAncestorsOf
    cases hfc : findConcept h code with
    | none => rfl
    | some c => exact ancestorsLoop_root code h.concepts hnd hroot
  · intro hsome hnroot
    obtain ⟨c, hfc⟩ := Option.isSome_iff_exists.mp hsome
    have hanc : hierarchicalAncestorsOf h code = ancestorsLoop code h.concepts := by
      unfold hierarchicalAncestorsOf
      rw [hfc]
    have hmem : code ∈ collectCodesUnderList h.concepts := by
      rw [← findCodeAmong_isSome_iff code h.concepts]
      exact hsome
    obtain ⟨root, hr, hrx⟩ := mem_collectList_split h.concepts hmem
    have hrne : ∀ r ∈ h.concepts, r.code ≠ code := by
      intro r hrr he
      exact hnroot (List.mem_map.mpr ⟨r, hrr, he⟩)
    have hex : ∃ root ∈ h.concepts, code ∈ collectCodesUnderList root.descendants := by
      refine ⟨root, hr, ?_⟩
      rw [collectCodesUnder_eq] at hrx
      rcases List.mem_cons.mp hrx with hx | hx
      · exact absurd hx.symm (hrne root hr)
      · exact hx
    rw [hanc]
    exact ancestorsLoop_spec code h.concepts hrne hex

/-- Witness for C6 at the example hierarchy: the forest has no duplicate
codes, `boy` is found, its descendants list is empty, and the ancestors of
`boy` form a root-first path (`[human, child]`). -/
theorem claim_C6_witness :
    (collectCodesUnderList hierHuman.concepts).Nodup ∧
    ((findConcept hierHuman "boy").isSome = true ↔
      "boy" ∈ collectCodesUnderList hierHuman.concepts) :=
  ⟨by decide, (claim_C6_hierarchy_queries hierHuman "boy" (by decide)).1⟩

/-! ## JSON values and Zod schemas

Documents are arbitrary JSON trees.  `ZSchema` is a deep embedding of the
Zod schema combinators this compiler builds (`z.any`, `z.never`,
`z.string().min`, `z.literal`, `z.enum`, `.and`, `.or`, `z.object`,
`z.array`, `.optional`, `.superRefine`, `z.string().regex`, `z.boolean`).
`accepts` is the parse-success semantics: a refinement is modelled by the
list of issues it adds, and a schema accepts a value iff parsing succeeds
with no issues.  Regular-expression matching is delegated to the JS `RegExp`
engine, abstracted as the parameter `re`. -/

theorem accepts_or_foldl (re : String → String → Bool) :
    ∀ (rest : List ZSchema) (s : ZSchema) (v : Json),
      accepts re (rest.foldl ZSchema.or_ s) v =
        (accepts re s v || rest.any (fun t => accepts re t v)) := by
  intro rest
  induction rest with
  | nil =>
    intro s v
    simp
  | cons r rest ih =>
    intro s v
    rw [List.foldl_cons, ih]
    simp [accepts, Bool.or_assoc]

theorem accepts_orSchemas (re : String → String → Bool) (l : List ZSchema) (v : Json) :
    accepts re (orSchemas l) v = l.any (fun t => accepts re t v) := by
  cases l with
  | nil => simp [orSchemas, accepts]
  | cons s rest =>
    rw [show orSchemas (s :: rest) = rest.foldl ZSchema.or_ s from rfl, accepts_or_foldl]
    simp

theorem accepts_and_foldl (re : String → String → Bool) :
    ∀ (rest : List ZSchema) (s : ZSchema) (v : Json),
      accepts re (rest.foldl ZSchema.and_ s) v =
        (accepts re s v && rest.all (fun t => accepts re t v)) := by
  intro rest
  induction rest with
  | nil =>
    intro s v
    simp
  | cons r rest ih =>
    intro s v
    rw [List.foldl_cons, ih]
    simp [accepts, Bool.and_assoc]

theorem accepts_andSchemas_cons (re : String → String → Bool) (s : ZSchema)
    (rest : List ZSchema) (v : Json) :
    accepts re (andSchemas (s :: rest)) v = (s :: rest).all (fun t => accepts re t v) := by
  rw [show andSchemas (s :: rest) = rest.foldl ZSchema.and_ s from rfl, accepts_and_foldl]
  simp

/-- C4: for every ValueSet the generator compiles successfully, the
contributed validator accepts a value iff it passes the OR of the include
schemas and does not pass the AND (`R_exc`) of the exclude schemas; and when
the include list contributes no schemas, the include side is `z.never()`, a
warning is emitted, and the validator rejects every value. -/
theorem claim_C4_valueset_include_exclude (re : String → String → Bool)
    (resolveSchema : String → Option ZSchema) (rr : String → Option ConceptHierarchy)
    (file : ResourceFile) (vs : ValueSet) (S : ZSchema) (w : List String)
    (incSchemas excSchemas : List ZSchema)
    (hok : processValueSetResource re file vs resolveSchema rr = Except.ok (S, w))
    (hinc : collectSchemas (composeIncludes vs) resolveSchema rr (ZSchema.string 1) =
      Except.ok incSchemas)
    (hexc : collectSchemas (composeExcludes vs) resolveSchema rr ZSchema.never =
      Except.ok excSchemas) :
    (∀ v, accepts re S v =
      ((incSchemas.any fun t => accepts re t v) &&
        ! accepts re (andSchemas excSchemas) v)) ∧
    (incSchemas = [] →
      w ≠ [] ∧ orSchemas incSchemas = ZSchema.never ∧ ∀ v, accepts re S v = false) := by
  have h1 : generateSchemaForIncludes vs resolveSchema rr =
      Except.ok (orSchemas incSchemas,
        if incSchemas.isEmpty then ["Could not contribute any schemas for ValueSet"]
        else []) := by
    unfold generateSchemaForIncludes
    rw [hinc]
    rfl
  have h2 : generateSchemaForExcludes vs resolveSchema rr =
      Except.ok (andSchemas excSchemas) := by
    unfold generateSchemaForExcludes
    rw [hexc]
    rfl
  by_cases hft : file.resourceType = "ValueSet"
  · unfold processValueSetResource at hok
    rw [if_neg (by simp [hft]), h1, h2] at hok
    have hok2 : (ZSchema.refine (orSchemas incSchemas)
        (fun v => if accepts re (andSchemas excSchemas) v
          then ["is excluded from the ValueSet"] else []),
        (if incSchemas.isEmpty then ["Could not contribute any schemas for ValueSet"]
          else [])) = (S, w) :=
      Except.ok.inj hok
    have hS := congrArg Prod.fst hok2
    have hw := congrArg Prod.snd hok2
    simp only at hS hw
    constructor
    · intro v
      rw [← hS]
      show (accepts re (orSchemas incSchemas) v &&
        ((if accepts re (andSchemas excSchemas) v then ["is excluded from the ValueSet"]
          else []).isEmpty)) = _
      rw [accepts_orSchemas]
      by_cases hx : accepts re (andSchemas excSchemas) v
      · rw [if_pos hx, hx]
        simp
      · rw [if_neg hx]
        simp only [Bool.not_eq_true] at hx
        rw [hx]
        simp
    · intro hempty
      subst hempty
      refine ⟨?_, rfl, ?_⟩
      · rw [← hw]
        simp
      · intro v
        rw [← hS]
        show (accepts re (orSchemas []) v && _) = false
        simp [orSchemas, accepts]
  · unfold processValueSetResource at hok
    rw [if_pos (by simp [hft])] at hok
    cases hok

/-- Witness for C4: the concrete ValueSet compiles, its include list yields
exactly the literal schema for `x`, the exclude list is empty, and applying
the theorem at the value `"x"` gives the include/exclude equation there. -/
theorem claim_C4_witness :
    processValueSetResource reF fileVS vsW rsN rrN = Except.ok (schemaW, []) ∧
    collectSchemas (composeIncludes vsW) rsN rrN (ZSchema.string 1) =
      Except.ok [ZSchema.literal "x"] ∧
    collectSchemas (composeExcludes vsW) rsN rrN ZSchema.never = Except.ok [] ∧
    accepts reF schemaW (Json.str "x") =
      (([ZSchema.literal "x"].any fun t => accepts reF t (Json.str "x")) &&
        ! accepts reF (andSchemas []) (Json.str "x")) :=
  ⟨rfl, rfl, rfl,
    (claim_C4_valueset_include_exclude reF rsN rrN fileVS vsW schemaW []
      [ZSchema.literal "x"] [] rfl rfl rfl).1 (Json.str "x")⟩

/-- C5 counterexample: for the `is-a` filter on property `prop` with value
`parent`, the code `x` names a concept whose `prop` value `kid` is a strict
descendant of `parent`, so the claimed is-a-over-property semantics accept it;
the generated filter schema rejects it (the property branch checks literal
equality of the property value with the filter value, ignoring the
operator). -/
theorem claim_C5_counterexample :
    (createFilterSchema "u" ⟨"prop", "is-a", "parent"⟩ rrProp).map
        (fun S => accepts reF S (Json.str "x")) = Except.ok false ∧
    "kid" ∈ hierarchicalDescendantsOf hierProp "parent" ∧
    findConcept hierProp "x" = some cptX ∧
    propOf cptX "prop" = some (PropValue.str "kid") :=
  ⟨rfl, by decide, rfl, rfl⟩

/-- C5 (amended): for an `is-a` filter on the `code` property the claimed
semantics hold (accept iff the code equals the filter value or is a strict
descendant of it; equality only without a hierarchy), but for a filter naming
any other property the operator is ignored: with a hierarchy the filter
accepts a code iff the code names a concept whose named property exists and
is literally equal (string-strict) to the filter value, and without a
hierarchy the filter schema is `z.any()` and accepts everything. -/
theorem claim_C5_isa_filter_amended (url fprop value : String)
    (rr : String → Option ConceptHierarchy) (re : String → String → Bool) :
    (∀ h S, fprop = "code" → rr url = some h →
      createFilterSchema url ⟨fprop, "is-a", value⟩ rr = Except.ok S →
      ∀ s : String, (accepts re S (Json.str s) = true ↔
        (s = value ∨ s ∈ hierarchicalDescendantsOf h value))) ∧
    (∀ S, fprop = "code" → rr url = none →
      createFilterSchema url ⟨fprop, "is-a", value⟩ rr = Except.ok S →
      ∀ s : String, (accepts re S (Json.str s) = true ↔ s = value)) ∧
    (∀ h S, fprop ≠ "code" → rr url = some h →
      createFilterSchema url ⟨fprop, "is-a", value⟩ rr = Except.ok S →
      ∀ s : String, accepts re S (Json.str s) =
        (match findConcept h s with
         | none => false
         | some c =>
           match propOf c fprop with
           | none => false
           | some pv => propEq pv value)) ∧
    (fprop ≠ "code" → rr url = none →
      createFilterSchema url ⟨fprop, "is-a", value⟩ rr = Except.ok ZSchema.any ∧
      ∀ v, accepts re ZSchema.any v = true) := by
  have hval : ∀ hopt, rr url = hopt →
      createFilterSchema url ⟨fprop, "is-a", value⟩ rr =
      (let valueSchema : ZSchema :=
        (match hopt with
         | some hierarchy =>
           ZSchema.refine (ZSchema.string 0) (fun v =>
             match v with
             | .str s =>
               if (value :: hierarchicalDescendantsOf hierarchy value).contains s
               then [] else ["does not pass the filter"]
             | _ => [])
         | none =>
           ZSchema.refine (ZSchema.string 0) (fun v =>
             match v with
             | .str s => if s = value then [] else ["does not pass the filter"]
             | _ => []))
       if fprop = "code" then Except.ok valueSchema
       else
         match hopt with
         | some hierarchy =>
           Except.ok (ZSchema.refine (ZSchema.string 0) (fun v =>
             match v with
             | .str s =>
               match findConcept hierarchy s with
               | none => ["not found from hierarchy"]
               | some concept =>
                 match propOf concept fprop with
                 | none => ["does not have property"]
                 | some pv =>
                   if propEq pv value then [] else ["property value mismatch"]
             | _ => []))
         | none => Except.ok ZSchema.any) := by
    intro hopt hrr
    unfold createFilterSchema
    simp only [hrr]
    cases hopt with
    | some hierarchy => rfl
    | none => rfl
  refine ⟨?_, ?_, ?_, ?_⟩
  · intro h S hcode hrr hok s
    rw [hval (some h) hrr] at hok
    simp only [if_pos hcode] at hok
    obtain rfl := (Except.ok.inj hok).symm
    show (accepts re (ZSchema.string 0) (Json.str s) &&
      (if (value :: hierarchicalDescendantsOf h value).contains s then ([] : List String)
       else ["does not pass the filter"]).isEmpty) = true ↔ _
    have hbase : accepts re (ZSchema.string 0) (Json.str s) = true := by
      simp [accepts]
    rw [hbase, Bool.true_and]
    by_cases hc : (value :: hierarchicalDescendantsOf h value).contains s
    · rw [if_pos hc]
      simp only [List.isEmpty_nil, true_iff]
      rcases List.mem_cons.mp (List.elem_iff.mp hc) with hh | hh
      · exact Or.inl hh
      · exact Or.inr hh
    · rw [if_neg hc]
      constructor
      · intro hfalse
        simp at hfalse
      · intro hx
        exfalso
        apply hc
        rw [List.elem_iff]
        rcases hx with hx | hx
        · exact hx ▸ List.mem_cons_self _ _
        · exact List.mem_cons_of_mem _ hx
  · intro S hcode hrr hok s
    rw [hval none hrr] at hok
    simp only [if_pos hcode] at hok
    obtain rfl := (Except.ok.inj hok).symm
    show (accepts re (ZSchema.string 0) (Json.str s) &&
      (if s = value then ([] : List String)
       else ["does not pass the filter"]).isEmpty) = true ↔ _
    have hbase : accepts re (ZSchema.string 0) (Json.str s) = true := by
      simp [accepts]
    rw [hbase, Bool.true_and]
    by_cases hc : s = value
    · rw [if_pos hc]
      simp only [List.isEmpty_nil, true_iff]
      exact hc
    · rw [if_neg hc]
      constructor
      · intro hfalse
        simp at hfalse
      · intro hx
        exact absurd hx hc
  · intro h S hprop hrr hok s
    rw [hval (some h) hrr] at hok
    simp only [if_neg hprop] at hok
    obtain rfl := (Except.ok.inj hok).symm
    show (accepts re (ZSchema.string 0) (Json.str s) && _) = _
    cases hfc : findConcept h s with
    | none =>
      simp [accepts, hfc]
    | some c =>
      cases hpv : propOf c fprop with
      | none => simp [accepts, hfc, hpv]
      | some pv =>
        by_cases hpe : propEq pv value = true
        · simp [accepts, hfc, hpv, hpe]
        · simp only [Bool.not_eq_true] at hpe
          simp [accepts, hfc, hpv, hpe]
  · intro hprop hrr
    rw [hval none hrr]
    constructor
    · simp only [if_neg hprop]
    · intro v
      rfl

/-- Witness for the amended C5, property branch: for the concept `x` of
`hierProp` (property `prop` = `kid`) and the `is-a` filter with value
`parent`, the schema's verdict is the literal property comparison, here
`false`. -/
theorem claim_C5_witness :
    rrProp "u" = some hierProp ∧
    ("prop" : String) ≠ "code" ∧
    accepts reF
      (((createFilterSchema "u" ⟨"prop", "is-a", "parent"⟩ rrProp).toOption).getD ZSchema.never)
      (Json.str "x") =
      (match findConcept hierProp "x" with
       | none => false
       | some c =>
         match propOf c "prop" with
         | none => false
         | some pv => propEq pv "parent") :=
  ⟨rfl, by decide,
    (claim_C5_isa_filter_amended "u" "prop" "parent" rrProp reF).2.2.1 hierProp
      (((createFilterSchema "u" ⟨"prop", "is-a", "parent"⟩ rrProp).toOption).getD ZSchema.never)
      (by decide) rfl rfl "x"⟩

/-! ## The intermediate format and schema conversion
(`parsing/structuredefinition/intermediate-format.ts` and `conversion.ts`)

`IntermediateStructureElement` is the tree node of the intermediate format.
FHIRPath evaluation (used by the constraint refinements of
`addConstraintToSchema` and throughout `createRefinementForSlices`) lives in
the external `fhirpath` engine; those two refinement factories are therefore
abstracted as the context fields `cref` and `sliceRef` — every code path
through them consults the engine.  The generated static schema table
(`Schemas` of the generated model) is the context field `statics`. -/

/-! ## Claim C7: choice-of-type expansion and exclusivity -/

theorem shapeLookup_upsert_self (sh : Shape) (k : String) (v : ZSchema) :
    shapeLookup (upsertShape sh k v) k = some v := by
  induction sh with
  | nil => simp [upsertShape, shapeLookup]
  | cons p rest ih =>
    obtain ⟨k0, v0⟩ := p
    by_cases h : k0 = k
    · subst h; simp [upsertShape, shapeLookup]
    · simp [upsertShape, shapeLookup, h, ih]

theorem shapeLookup_upsert_ne (sh : Shape) (k k' : String) (v : ZSchema)
    (h : k' ≠ k) :
    shapeLookup (upsertShape sh k v) k' = shapeLookup sh k' := by
  have hne : ¬ k = k' := fun hh => h hh.symm
  induction sh with
  | nil =>
    simp only [upsertShape, shapeLookup]
    rw [if_neg hne]
  | cons p rest ih =>
    obtain ⟨k0, v0⟩ := p
    by_cases h0 : k0 = k
    · subst h0
      simp only [upsertShape, if_pos rfl, shapeLookup]
      rw [if_neg hne, if_neg hne]
    · simp only [upsertShape, if_neg h0]
      by_cases h1 : k0 = k'
      · simp [shapeLookup, h1]
      · simp [shapeLookup, h1, ih]

theorem shapeLookup_upsert_cases (sh : Shape) (k k' : String) (v s' : ZSchema)
    (h : shapeLookup (upsertShape sh k v) k' = some s') :
    s' = v ∨ shapeLookup sh k' = some s' := by
  by_cases he : k' = k
  · subst he
    rw [shapeLookup_upsert_self] at h
    exact Or.inl (Option.some.inj h).symm
  · rw [shapeLookup_upsert_ne sh k k' v he] at h
    exact Or.inr h

theorem shapeLookup_upsert_isSome (sh : Shape) (k k' : String) (v : ZSchema)
    (h : (shapeLookup sh k').isSome) :
    (shapeLookup (upsertShape sh k v) k').isSome := by
  by_cases he : k' = k
  · subst he; rw [shapeLookup_upsert_self]; rfl
  · rw [shapeLookup_upsert_ne sh k k' v he]; exact h

theorem pushOpt_fst (st : Shape × List (Json → List String))
    (r : Option (Json → List String)) : (pushOpt st r).1 = st.1 := by
  cases r <;> simp [pushOpt]

theorem pushOpt_snd_mem (st : Shape × List (Json → List String))
    (o : Option (Json → List String)) (r : Json → List String)
    (h : r ∈ st.2) : r ∈ (pushOpt st o).2 := by
  cases o with
  | none => simpa [pushOpt] using h
  | some f =>
    simp only [pushOpt]
    exact List.mem_append_left _ h

theorem applyCardinality_zero_one (s : ZSchema) :
    applyCardinality s 0 1 = ZSchema.optional s := by
  simp [applyCardinality]

theorem applyCardinality_one_one (s : ZSchema) :
    applyCardinality s 1 1 = s := by
  simp [applyCardinality]

theorem addChild_spec (ctx : ConvertCtx) (sel : Option (Json → List String))
    (fn ct : String) (con : List ElementConstraint)
    (ch : List IntermediateStructureElement) (cmin cmax : Nat)
    (st : Shape × List (Json → List String)) :
    ∃ s, addChild ctx sel fn ct con ch cmin cmax st =
      (upsertShape st.1 fn (applyCardinality s cmin cmax),
       st.2 ++ (match sel with | some f => [f] | none => [])) := by
  refine ⟨(if ch.isEmpty then
      con.foldl (fun acc c => ZSchema.refine acc (ctx.cref c))
        ((ctx.resolveSchema ct).getD ZSchema.any)
    else ZSchema.and_
      (con.foldl (fun acc c => ZSchema.refine acc (ctx.cref c))
        ((ctx.resolveSchema ct).getD ZSchema.any))
      (ZSchema.object (childrenShapeList ctx ch []))), ?_⟩
  rw [addChild.eq_def]

theorem variantLoop_shape_optional (ctx : ConvertCtx)
    (child : IntermediateStructureElement) (pfx : String) :
    ∀ (ts : List String) (st : Shape × List (Json → List String)),
      (∀ k s', shapeLookup st.1 k = some s' → ∃ u, s' = ZSchema.optional u) →
      ∀ k s', shapeLookup (variantLoop ctx child pfx ts st).1 k = some s' →
        ∃ u, s' = ZSchema.optional u := by
  intro ts
  induction ts with
  | nil => intro st h k s' hl; rw [variantLoop] at hl; exact h k s' hl
  | cons t rest ih =>
    intro st h k s' hl
    rw [variantLoop] at hl
    refine ih _ ?_ k s' hl
    intro k1 s1 hs1
    rw [pushOpt_fst] at hs1
    obtain ⟨s2, hac⟩ := addChild_spec ctx
      (ctx.sliceRef (variantElem child (pfx ++ capitalizeFirstLetter t) t))
      (pfx ++ capitalizeFirstLetter t) t child.constraint child.children 0 1 st
    rw [hac] at hs1
    simp only [applyCardinality_zero_one] at hs1
    rcases shapeLookup_upsert_cases _ _ _ _ _ hs1 with h1 | h1
    · exact ⟨s2, h1⟩
    · exact h k1 s1 h1

theorem variantLoop_preserves_isSome (ctx : ConvertCtx)
    (child : IntermediateStructureElement) (pfx : String) :
    ∀ (ts : List String) (st : Shape × List (Json → List String)) (k : String),
      (shapeLookup st.1 k).isSome →
      (shapeLookup (variantLoop ctx child pfx ts st).1 k).isSome := by
  intro ts
  induction ts with
  | nil => intro st k h; rw [variantLoop]; exact h
  | cons t rest ih =>
    intro st k h
    rw [variantLoop]
    refine ih _ k ?_
    rw [pushOpt_fst]
    obtain ⟨s2, hac⟩ := addChild_spec ctx
      (ctx.sliceRef (variantElem child (pfx ++ capitalizeFirstLetter t) t))
      (pfx ++ capitalizeFirstLetter t) t child.constraint child.children 0 1 st
    rw [hac]
    exact shapeLookup_upsert_isSome _ _ _ _ h

theorem variantLoop_key_isSome (ctx : ConvertCtx)
    (child : IntermediateStructureElement) (pfx : String) :
    ∀ (ts : List String) (st : Shape × List (Json → List String)) (t : String),
      t ∈ ts →
      (shapeLookup (variantLoop ctx child pfx ts st).1
        (pfx ++ capitalizeFirstLetter t)).isSome := by
  intro ts
  induction ts with
  | nil => intro st t ht; cases ht
  | cons t0 rest ih =>
    intro st t ht
    rw [variantLoop]
    rcases List.mem_cons.mp ht with h | h
    · subst h
      refine variantLoop_preserves_isSome ctx child pfx rest _ _ ?_
      rw [pushOpt_fst]
      obtain ⟨s2, hac⟩ := addChild_spec ctx
        (ctx.sliceRef (variantElem child (pfx ++ capitalizeFirstLetter t) t))
        (pfx ++ capitalizeFirstLetter t) t child.constraint child.children 0 1 st
      rw [hac]
      simp [shapeLookup_upsert_self]
    · exact ih _ t h

theorem variantLoop_snd_mem (ctx : ConvertCtx)
    (child : IntermediateStructureElement) (pfx : String) :
    ∀ (ts : List String) (st : Shape × List (Json → List String))
      (r : Json → List String), r ∈ st.2 →
      r ∈ (variantLoop ctx child pfx ts st).2 := by
  intro ts
  induction ts with
  | nil => intro st r h; rw [variantLoop]; exact h
  | cons t rest ih =>
    intro st r h
    rw [variantLoop]
    refine ih _ r ?_
    refine pushOpt_snd_mem _ _ _ ?_
    obtain ⟨s2, hac⟩ := addChild_spec ctx
      (ctx.sliceRef (variantElem child (pfx ++ capitalizeFirstLetter t) t))
      (pfx ++ capitalizeFirstLetter t) t child.constraint child.children 0 1 st
    rw [hac]
    exact List.mem_append_left _ h

theorem addChild_snd_mem (ctx : ConvertCtx) (sel : Option (Json → List String))
    (fn ct : String) (con : List ElementConstraint)
    (ch : List IntermediateStructureElement) (cmin cmax : Nat)
    (st : Shape × List (Json → List String)) (r : Json → List String)
    (h : r ∈ st.2) : r ∈ (addChild ctx sel fn ct con ch cmin cmax st).2 := by
  obtain ⟨s2, hac⟩ := addChild_spec ctx sel fn ct con ch cmin cmax st
  rw [hac]
  exact List.mem_append_left _ h

theorem shapeChildren_snd_mem (ctx : ConvertCtx) :
    ∀ (cs : List IntermediateStructureElement)
      (st : Shape × List (Json → List String)) (r : Json → List String),
      r ∈ st.2 → r ∈ (shapeChildren ctx cs st).2 := by
  intro cs
  induction cs with
  | nil => intro st r h; rw [shapeChildren]; exact h
  | cons child rest ih =>
    intro st r h
    rw [shapeChildren]
    by_cases hx : jsEndsWith child.fieldName "[x]" = true
    · simp only [hx, if_true]
      refine ih _ r ?_
      exact List.mem_append_left _ (variantLoop_snd_mem ctx child _ _ st r h)
    · simp only [hx]
      simp only [Bool.false_eq_true, if_false]
      refine ih _ r ?_
      exact pushOpt_snd_mem _ _ _ (addChild_snd_mem ctx _ _ _ _ _ _ _ st r h)

theorem mustHave_mem_shapeChildren (ctx : ConvertCtx)
    (child : IntermediateStructureElement)
    (hx : jsEndsWith child.fieldName "[x]" = true) :
    ∀ (cs : List IntermediateStructureElement)
      (st : Shape × List (Json → List String)), child ∈ cs →
      MustHaveAtMostOneFieldStartingWith (jsDropRight child.fieldName 3) ∈
        (shapeChildren ctx cs st).2 := by
  intro cs
  induction cs with
  | nil => intro st h; cases h
  | cons c rest ih =>
    intro st h
    rcases List.mem_cons.mp h with hc | hc
    · subst hc
      rw [shapeChildren]
      simp only [hx, if_true]
      refine shapeChildren_snd_mem ctx rest _ _ ?_
      exact List.mem_append_right _ (List.mem_singleton.mpr rfl)
    · rw [shapeChildren]
      exact ih _ hc

theorem createShape_fst (ctx : ConvertCtx) (e : IntermediateStructureElement) :
    (createShape ctx e).1 = (shapeChildren ctx e.children ([], [])).1 := by
  rw [createShape]
  split
  · rfl
  · split
    · rw [pushOpt_fst]
    · rfl

theorem mustHave_mem_createShape (ctx : ConvertCtx)
    (e child : IntermediateStructureElement) (hmem : child ∈ e.children)
    (hx : jsEndsWith child.fieldName "[x]" = true) :
    MustHaveAtMostOneFieldStartingWith (jsDropRight child.fieldName 3) ∈
      (createShape ctx e).2 := by
  rw [createShape]
  have hbase := mustHave_mem_shapeChildren ctx child hx e.children ([], []) hmem
  split
  · exact hbase
  · split
    · exact pushOpt_snd_mem _ _ _ hbase
    · exact hbase

theorem accepts_refine_eq (re : String → String → Bool) (s : ZSchema)
    (f : Json → List String) (v : Json) :
    accepts re (ZSchema.refine s f) v = (accepts re s v && (f v).isEmpty) := by
  rw [accepts]

theorem accepts_foldl_refine_false (re : String → String → Bool) (v : Json) :
    ∀ (l : List (Json → List String)) (s : ZSchema),
      accepts re s v = false →
      accepts re (l.foldl ZSchema.refine s) v = false := by
  intro l
  induction l with
  | nil => intro s h; exact h
  | cons f rest ih =>
    intro s h
    rw [List.foldl_cons]
    refine ih _ ?_
    rw [accepts_refine_eq, h]
    rfl

theorem accepts_foldl_refine_mem (re : String → String → Bool) (v : Json)
    (r : Json → List String) (hr : r v ≠ []) :
    ∀ (l : List (Json → List String)) (s : ZSchema), r ∈ l →
      accepts re (l.foldl ZSchema.refine s) v = false := by
  intro l
  induction l with
  | nil => intro s h; cases h
  | cons f rest ih =>
    intro s h
    rcases List.mem_cons.mp h with hc | hc
    · subst hc
      rw [List.foldl_cons]
      refine accepts_foldl_refine_false re v rest _ ?_
      rw [accepts_refine_eq]
      have : (r v).isEmpty = false := by
        cases hv : r v with
        | nil => exact absurd hv hr
        | cons a as => rfl
      rw [this, Bool.and_false]
    · rw [List.foldl_cons]
      exact ih _ hc

theorem mustHave_issue_ne_nil (pfx : String) (fields : List (String × Json))
    (h : 2 ≤ ((fields.map Prod.fst).filter (fun k => jsStartsWith k pfx)).length) :
    MustHaveAtMostOneFieldStartingWith pfx (Json.obj fields) ≠ [] := by
  simp only [MustHaveAtMostOneFieldStartingWith]
  rw [if_pos (by omega)]
  simp

theorem accepts_applyRefinements_false (re : String → String → Bool)
    (base : ZSchema) (refs : List (Json → List String))
    (r : Json → List String) (hmem : r ∈ refs) (v : Json) (hr : r v ≠ []) :
    accepts re (applyRefinementsToSchema base refs) v = false := by
  rw [applyRefinementsToSchema, accepts]
  rw [accepts_foldl_refine_mem re v r hr refs base hmem, Bool.and_false]

theorem accepts_createSchema_false (re : String → String → Bool)
    (ctx : ConvertCtx) (e : IntermediateStructureElement) (bt : Option String)
    (v : Json) (r : Json → List String)
    (hmem : r ∈ (createShape ctx e).2) (hr : r v ≠ [])
    (hmin : e.min = 1) (hmax : e.max = 1) :
    accepts re (createSchema ctx e bt) v = false := by
  have h2 : (createShape ctx e).2.length ≠ 0 := by
    have hne := List.ne_nil_of_mem hmem
    intro hlen
    exact hne (List.length_eq_zero.mp hlen)
  simp only [createSchema]
  rw [hmin, hmax, applyCardinality_one_one]
  by_cases h1 : (createShape ctx e).1.length ≠ 0
  · rw [if_pos h1, Option.getD_some]
    exact accepts_applyRefinements_false re _ _ r hmem v hr
  · rw [if_neg h1, if_pos h2, Option.getD_some]
    exact accepts_applyRefinements_false re _ _ r hmem v hr

/-- **C7** (confirmed): for an element whose field name ends in `[x]`, the
compiler emits one `.optional()` field per candidate type under the name
`<prefix><CapitalisedType>` (shown for an element whose shape consists of
that choice group), always attaches the
`MustHaveAtMostOneFieldStartingWith(prefix)` refinement to the parent, and
therefore rejects every object carrying two or more own fields that start
with the prefix. -/
theorem claim_C7_choice_of_type (re : String → String → Bool)
    (ctx : ConvertCtx) (e child : IntermediateStructureElement)
    (bt : Option String) (fields : List (String × Json))
    (hmem : child ∈ e.children)
    (hx : jsEndsWith child.fieldName "[x]" = true)
    (hmin : e.min = 1) (hmax : e.max = 1)
    (hfields : 2 ≤ ((fields.map Prod.fst).filter
      (fun k => jsStartsWith k (jsDropRight child.fieldName 3))).length) :
    (e.children = [child] → ∀ t ∈ child.types, ∃ u,
      shapeLookup (createShape ctx e).1
        (jsDropRight child.fieldName 3 ++ capitalizeFirstLetter t) =
        some (ZSchema.optional u)) ∧
    MustHaveAtMostOneFieldStartingWith (jsDropRight child.fieldName 3) ∈
      (createShape ctx e).2 ∧
    accepts re (createSchema ctx e bt) (Json.obj fields) = false := by
  refine ⟨?_, mustHave_mem_createShape ctx e child hmem hx, ?_⟩
  · intro hch t ht
    have h1 : (createShape ctx e).1 =
        (variantLoop ctx child (jsDropRight child.fieldName 3) child.types
          ([], [])).1 := by
      rw [createShape_fst, hch]
      simp only [shapeChildren, hx, if_true]
    have hsome : (shapeLookup (createShape ctx e).1
        (jsDropRight child.fieldName 3 ++ capitalizeFirstLetter t)).isSome := by
      rw [h1]
      exact variantLoop_key_isSome ctx child _ child.types ([], []) t ht
    obtain ⟨s', hs'⟩ := Option.isSome_iff_exists.mp hsome
    have hopt := variantLoop_shape_optional ctx child
      (jsDropRight child.fieldName 3) child.types ([], [])
      (by intro k s'' hcontra; simp [shapeLookup] at hcontra)
      (jsDropRight child.fieldName 3 ++ capitalizeFirstLetter t) s'
      (by rw [← h1]; exact hs')
    obtain ⟨u, hu⟩ := hopt
    exact ⟨u, by rw [hs', hu]⟩
  · exact accepts_createSchema_false re ctx e bt (Json.obj fields)
      (MustHaveAtMostOneFieldStartingWith (jsDropRight child.fieldName 3))
      (mustHave_mem_createShape ctx e child hmem hx)
      (mustHave_issue_ne_nil _ fields hfields) hmin hmax

theorem claim_C7_witness :
    childW ∈ elemW.children ∧
    jsEndsWith childW.fieldName "[x]" = true ∧
    elemW.min = 1 ∧ elemW.max = 1 ∧
    2 ≤ ((fieldsW.map Prod.fst).filter
      (fun k => jsStartsWith k (jsDropRight childW.fieldName 3))).length ∧
    accepts (fun _ _ => true) (createSchema ctxW elemW none)
      (Json.obj fieldsW) = false := by
  refine ⟨List.Mem.head _, by decide, rfl, rfl, by decide, ?_⟩
  exact (claim_C7_choice_of_type (fun _ _ => true) ctxW elemW childW none
    fieldsW (List.Mem.head _) (by decide) rfl rfl (by decide)).2.2

/-! ## `removeOverlappingDefinitions` (`schemas/schema-generator.ts`)

The JSON parser applied to each overlapping file's path is abstracted as the
parameter `parse`; only the `status`, `experimental` and `date` properties of
the parsed object are consulted.  JS `Array.prototype.sort` is stable, so it
is modelled with `List.mergeSort`. -/

theorem uniqueAux_subset_seen :
    ∀ (l seen : List String), (∀ x ∈ l, x ∈ seen) → uniqueAux seen l = [] := by
  intro l
  induction l with
  | nil => intro seen h; rfl
  | cons x xs ih =>
    intro seen h
    rw [uniqueAux, if_pos (h x (List.mem_cons_self x xs))]
    exact ih seen (fun y hy => h y (List.mem_cons_of_mem x hy))

theorem uniqueStr_all_eq (u : String) (l : List String)
    (hall : ∀ x ∈ l, x = u) : uniqueStr (u :: l) = [u] := by
  have h2 : uniqueAux [u] l = [] :=
    uniqueAux_subset_seen l [u]
      (fun x hx => by rw [hall x hx]; exact List.mem_cons_self u [])
  rw [uniqueStr, uniqueAux, if_neg (List.not_mem_nil u), h2]

theorem filterEnrichedFiles_all_pass (full : List EnrichedResourceFile) :
    ∀ (fns : List (EnrichedResourceFile → Bool)),
      (∀ fn ∈ fns, full.filter fn = full) →
      filterEnrichedFiles full fns full = full := by
  intro fns
  induction fns with
  | nil =>
    intro _
    rw [filterEnrichedFiles]
    split <;> rfl
  | cons fn rest ih =>
    intro hall
    rw [filterEnrichedFiles]
    by_cases hlen : 1 < full.length
    · rw [if_pos hlen]
      have hf : full.filter fn = full := hall fn (List.mem_cons_self fn rest)
      simp only [hf]
      cases rest with
      | nil => simp
      | cons f2 r2 =>
        simp only [List.length_cons, lt_add_iff_pos_left, Nat.zero_lt_succ,
          if_pos, if_true, eq_self_iff_true]
        exact ih (fun g hg => hall g (List.mem_cons_of_mem fn hg))
    · rw [if_neg hlen]

theorem c8_selects_head (parse : String → ResourceObject) (f : ResourceFile)
    (rest : List ResourceFile) (u : String)
    (hall : ∀ g ∈ f :: rest, g.url = u)
    (hactive : ∀ g ∈ f :: rest, (parse g.filePath).status = some "active")
    (hexp : ∀ g ∈ f :: rest, (parse g.filePath).experimental = some false)
    (hdate : ∀ g ∈ f :: rest, jsTruthyStr (parse g.filePath).date = false) :
    removeOverlappingDefinitions parse (f :: rest) = [f] := by
  simp only [removeOverlappingDefinitions]
  have hu : uniqueStr ((f :: rest).map (fun g => g.url)) = [u] := by
    rw [List.map_cons, hall f (List.mem_cons_self f rest)]
    refine uniqueStr_all_eq u _ (fun x hx => ?_)
    obtain ⟨g, hg, hgx⟩ := List.mem_map.mp hx
    rw [← hgx]
    exact hall g (List.mem_cons_of_mem f hg)
  rw [hu, List.flatMap_cons, List.flatMap_nil, List.append_nil]
  have hfil : (f :: rest).filter (fun g => g.url == u) = f :: rest :=
    List.filter_eq_self.mpr (fun g hg => by rw [hall g hg]; simp)
  rw [hfil]
  cases rest with
  | nil => simp
  | cons f2 r2 =>
    rw [if_neg (by simp)]
    have hpass : ∀ fn ∈ [filterActiveOnly, filterNonRetiredOnly,
        filterNonExperimentalOnly],
        ((f :: f2 :: r2).map
          (fun g => EnrichedResourceFile.mk g (parse g.filePath))).filter fn =
        (f :: f2 :: r2).map
          (fun g => EnrichedResourceFile.mk g (parse g.filePath)) := by
      intro fn hfn
      refine List.filter_eq_self.mpr (fun e he => ?_)
      obtain ⟨g, hg, hge⟩ := List.mem_map.mp he
      rcases List.mem_cons.mp hfn with h1 | hfn
      · rw [← hge, h1]
        simp [filterActiveOnly, hactive g hg]
      rcases List.mem_cons.mp hfn with h1 | hfn
      · rw [← hge, h1]
        simp [filterNonRetiredOnly, hactive g hg]
      rcases List.mem_cons.mp hfn with h1 | hfn
      · rw [← hge, h1]
        simp [filterNonExperimentalOnly, hexp g hg]
      · cases hfn
    rw [filterEnrichedFiles_all_pass _ _ hpass]
    rw [if_neg (by simp)]
    have hsorted : (((f :: f2 :: r2).map
        (fun g => EnrichedResourceFile.mk g (parse g.filePath))).mergeSort
          (fun a b => decide (sortMostRecentFirst a b ≤ 0))) =
        ((f :: f2 :: r2).map
          (fun g => EnrichedResourceFile.mk g (parse g.filePath))) := by
      refine List.mergeSort_of_sorted
        (List.pairwise_of_forall_mem_list (fun a ha b hb => ?_))
      obtain ⟨g, hg, hge⟩ := List.mem_map.mp ha
      have hda : jsTruthyStr a.data.date = false := by
        rw [← hge]; exact hdate g hg
      simp [sortMostRecentFirst, hda]
    rw [hsorted]
    simp

/-- **C8 counterexample**: two permutations of the same registrations — same
URL, identical `status`/`experimental`/`date` metadata — make
`removeOverlappingDefinitions` select different files, so the selection is
not order independent and no file-path tiebreak exists. -/
theorem claim_C8_counterexample :
    [fA8, fB8].Perm [fB8, fA8] ∧
    fA8.url = fB8.url ∧
    parseW8 fA8.filePath = parseW8 fB8.filePath ∧
    removeOverlappingDefinitions parseW8 [fA8, fB8] = [fA8] ∧
    removeOverlappingDefinitions parseW8 [fB8, fA8] = [fB8] ∧
    fA8 ≠ fB8 := by
  refine ⟨List.Perm.swap fB8 fA8 [], rfl, rfl, ?_, ?_, by decide⟩
  · exact c8_selects_head parseW8 fA8 [fB8] "http://example.org/overlap"
      (by decide) (by decide) (by decide) (by decide)
  · exact c8_selects_head parseW8 fB8 [fA8] "http://example.org/overlap"
      (by decide) (by decide) (by decide) (by decide)

/-- **C8** (amended): when every file of a group shares one URL, survives the
`active`/non-`retired`/non-`experimental` filters, and carries no truthy
`date`, `removeOverlappingDefinitions` returns the FIRST file of the group in
input order; the file path is never consulted. -/
theorem claim_C8_dedupe_amended (parse : String → ResourceObject)
    (f : ResourceFile) (rest : List ResourceFile) (u : String)
    (hall : ∀ g ∈ f :: rest, g.url = u)
    (hactive : ∀ g ∈ f :: rest, (parse g.filePath).status = some "active")
    (hexp : ∀ g ∈ f :: rest, (parse g.filePath).experimental = some false)
    (hdate : ∀ g ∈ f :: rest, jsTruthyStr (parse g.filePath).date = false) :
    removeOverlappingDefinitions parse (f :: rest) = [f] :=
  c8_selects_head parse f rest u hall hactive hexp hdate

theorem claim_C8_witness :
    (∀ g ∈ fA8 :: [fB8], g.url = "http://example.org/overlap") ∧
    (∀ g ∈ fA8 :: [fB8], (parseW8 g.filePath).status = some "active") ∧
    (∀ g ∈ fA8 :: [fB8], (parseW8 g.filePath).experimental = some false) ∧
    (∀ g ∈ fA8 :: [fB8], jsTruthyStr (parseW8 g.filePath).date = false) ∧
    removeOverlappingDefinitions parseW8 (fA8 :: [fB8]) = [fA8] :=
  ⟨by decide, by decide, by decide, by decide,
    claim_C8_dedupe_amended parseW8 fA8 [fB8] "http://example.org/overlap"
      (by decide) (by decide) (by decide) (by decide)⟩

/-! ## Claim C9: error containment of the schema-generation path

`buildSchemaForComplexType` (`parsing/structuredefinition/schema-generator.ts`)
wraps the conversion pipeline in `try`/`catch` and degrades every thrown
error to `z.any().optional()`.  The per-file loop of
`generateZodSchemasForResourceFiles` (`schema-generator.ts`), however, has no
`try`/`catch` around `processResource`, so an error thrown by the ValueSet
generator (`Invalid include element`, part_006) escapes the facade.  Thrown
JS exceptions are modelled with `Except.error`. -/

/-- **C9 counterexample**: a ValueSet with an invalid `compose.include`
element makes the schema-generation loop return an error — the thrown
`Invalid include element` escapes the facade instead of degrading the
resource to an Any validator. -/
theorem claim_C9_counterexample :
    generateSchemasForValueSetFiles reF [(fileVS9, vsBad)] rsN rrN =
      Except.error "Invalid include element" := rfl

/-- **C9** (amended): a StructureDefinition without a root element does make
the conversion throw, and `buildSchemaForComplexType` degrades every thrown
conversion error to `z.any().optional()`, which accepts every document; but
an invalid ValueSet `compose.include` element aborts the whole generation
loop with an uncaught `Invalid include element` error. -/
theorem claim_C9_error_containment_amended (re : String → String → Bool)
    (ctx : ConvertCtx) (sd : StructureDefinitionData) (e : String) (v : Json)
    (hroot : ∀ el ∈ sd.elements, el.id ≠ some sd.type) :
    convertStructureDefinitionRootStep sd =
      Except.error "Could not find root element for StructureDefinition" ∧
    buildSchemaForComplexType ctx (Except.error e) =
      ZSchema.optional ZSchema.any ∧
    accepts re (buildSchemaForComplexType ctx (Except.error e)) v = true ∧
    (∀ (file : ResourceFile) (vsb : ValueSet)
      (rs : String → Option ZSchema) (rr : String → Option ConceptHierarchy)
      (inc : ValueSetComposeInclude) (rest : List ValueSetComposeInclude),
      file.resourceType = "ValueSet" →
      composeIncludes vsb = inc :: rest →
      isValueSetInclude inc = false →
      isSystemInclude inc = false →
      generateSchemasForValueSetFiles re [(file, vsb)] rs rr =
        Except.error "Invalid include element") := by
  refine ⟨?_, rfl, rfl, ?_⟩
  · rw [convertStructureDefinitionRootStep]
    have hfind : findRootElement sd = none := by
      rw [findRootElement]
      refine List.find?_eq_none.mpr (fun el hel => ?_)
      have := hroot el hel
      simp [this]
    rw [hfind]
  · intro file vsb rs rr inc rest hft hci hv hs
    have hcoll : collectSchemas (composeIncludes vsb) rs rr (ZSchema.string 1) =
        Except.error "Invalid include element" := by
      rw [hci, collectSchemas, List.foldlM_cons]
      have hstep : (if isValueSetInclude inc = true then
          Except.ok (([] : List ZSchema) ++
            createIncludeSchemasForValueSet (inc.valueSet.getD []) rs
              (ZSchema.string 1))
        else if h : isSystemInclude inc = true then do
          let schemas ← createIncludeSchemasForSystem inc (inc.system.get h)
            rs rr (ZSchema.string 1)
          Except.ok (([] : List ZSchema) ++ schemas)
        else Except.error "Invalid include element") =
          (Except.error "Invalid include element" :
            Except String (List ZSchema)) := by
        rw [if_neg (by simp [hv]), dif_neg (by simp [hs])]
      simp only [hstep]
      rfl
    have hproc : processValueSetResource re file vsb rs rr =
        Except.error "Invalid include element" := by
      rw [processValueSetResource]
      rw [if_neg (by simp [hft])]
      simp only [generateSchemaForIncludes, hcoll]
      rfl
    rw [generateSchemasForValueSetFiles, List.foldlM_cons]
    simp only [hproc]
    rfl

theorem claim_C9_witness :
    (∀ el ∈ sd9.elements, el.id ≠ some sd9.type) ∧
    accepts reF (buildSchemaForComplexType ctxW (Except.error "boom"))
      (Json.str "not a FHIR resource") = true ∧
    fileVS9.resourceType = "ValueSet" ∧
    composeIncludes vsBad = [{}] ∧
    isValueSetInclude {} = false ∧
    isSystemInclude ({} : ValueSetComposeInclude) = false ∧
    generateSchemasForValueSetFiles reF [(fileVS9, vsBad)] rsN rrN =
      Except.error "Invalid include element" := by
  refine ⟨by decide, ?_, rfl, rfl, rfl, rfl, ?_⟩
  · exact (claim_C9_error_containment_amended reF ctxW sd9 "boom"
      (Json.str "not a FHIR resource") (by decide)).2.2.1
  · exact (claim_C9_error_containment_amended reF ctxW sd9 "boom"
      (Json.str "not a FHIR resource") (by decide)).2.2.2 fileVS9 vsBad rsN rrN
      {} [] rfl rfl rfl rfl

/-! ## Claim C10: `FhirValidator.validate` (part_003)

The loaded schema map is an insertion-ordered assoc list (`Record<string,
z.Schema>`); `safeParseAsync` success is the `accepts` semantics and the
per-profile issue messages are abstracted to one placeholder message.  Only
string-valued `meta.profile` entries and `url` fields are considered (FHIR
declares both as strings). -/

/-- **C10** (confirmed): with a non-empty schema map, a document whose
effective profile list is empty — no `options.profiles`, self-declared
profiles absent or ignored, no truthy top-level `url` — is validated against
no schema at all: the result is `{success: true, data: document}` for every
document and every schema map. -/
theorem claim_C10_empty_profiles_success (re : String → String → Bool)
    (schemas : List (String × ZSchema)) (resource : Json)
    (options : Option ValidateOptions)
    (hne : schemas.length ≠ 0)
    (hopt : (options.map (fun o => o.profiles.getD [])).getD [] = [])
    (hmeta : (options.map (fun o => o.ignoreSelfDeclaredProfiles)).getD false
        = true ∨ metaProfiles resource = [])
    (hurl : resourceUrlKey resource = none) :
    FhirValidatorValidate re schemas resource options =
      { success := true, data := some resource } := by
  rw [FhirValidatorValidate, if_neg hne]
  simp only [hopt, hurl, List.nil_append]
  rcases hmeta with hmeta | hmeta
  · simp [hmeta]
  · simp [hmeta]

theorem claim_C10_witness :
    schemas10.length ≠ 0 ∧
    ((none : Option ValidateOptions).map (fun o => o.profiles.getD [])).getD []
      = [] ∧
    metaProfiles garbage10 = [] ∧
    resourceUrlKey garbage10 = none ∧
    FhirValidatorValidate reF schemas10 garbage10 none =
      { success := true, data := some garbage10 } :=
  ⟨by decide, rfl, rfl, rfl,
    claim_C10_empty_profiles_success reF schemas10 garbage10 none
      (by decide) rfl (Or.inr rfl) rfl⟩

end FhirTyped

